import Mathlib

/-!
Verification of the numerical core of the power-grid-model repository: the
Newton–Raphson power-flow solver (`newton_raphson_pf_solver.hpp`) and the
sparse LU solver with pivot perturbation and iterative refinement
(`sparse_lu_solver.hpp`).

The C++ code computes with `double` / `std::complex<double>`.  The shallow
embedding below replaces machine floating point by exact arithmetic: real
scalars become `ℚ`, complex scalars become pairs of rationals (`CQ`).  In
exact arithmetic there are no NaNs, infinities or subnormals, so the
`is_normal` test of the source degenerates to `x ≠ 0`; this is recorded at
its definition.  Control flow (loop bounds, update order, in-place array
mutation, error throws) is translated faithfully; arrays are total functions
`ℕ → _` updated pointwise, and `throw SparseMatrixError` becomes the `none` /
`.error` case of `Option` / `Except`.
-/

namespace PGM

/-- Pointwise array update (in-place store `a[i] = v` of the C++ code). -/
def upd {α : Type} (f : ℕ → α) (i : ℕ) (v : α) : ℕ → α :=
  fun j => if j = i then v else f j

theorem upd_same {α : Type} (f : ℕ → α) (i : ℕ) (v : α) : upd f i v i = v := by
  simp [upd]

theorem upd_other {α : Type} (f : ℕ → α) (i j : ℕ) (v : α) (h : j ≠ i) :
    upd f i v j = f j := by
  simp [upd, h]

/-- Complex numbers with rational coordinates: the exact-arithmetic shadow of
`std::complex<double>`. -/
structure CQ where
  re : ℚ
  im : ℚ
deriving DecidableEq, Repr

namespace CQ

def czero : CQ := ⟨0, 0⟩

def cadd (x y : CQ) : CQ := ⟨x.re + y.re, x.im + y.im⟩

def csub (x y : CQ) : CQ := ⟨x.re - y.re, x.im - y.im⟩

def cmul (x y : CQ) : CQ := ⟨x.re * y.re - x.im * y.im, x.re * y.im + x.im * y.re⟩

/-- Complex conjugate `conj`. -/
def cconj (x : CQ) : CQ := ⟨x.re, -x.im⟩

def cneg (x : CQ) : CQ := ⟨-x.re, -x.im⟩

end CQ

/-!
## Newton–Raphson power-flow solver, symmetric mode

In symmetric mode (`sym = symmetric_t`) every tensor cell of
`newton_raphson_pf_solver.hpp` is a scalar: `ComplexValue<sym> = ℂ`,
`ComplexTensor<sym> = ℂ`, `RealValue<sym> = ℝ`, the `vector_outer_product`
is an ordinary product, `sum_row` is the identity and `add_diag` is scalar
addition.  `PFJacBlock<sym>` is the 2×2 real block `(h n; m l)`.
-/

/-- `PFJacBlock<symmetric_t>`: the 2×2 Jacobian block with scalar cells. -/
structure PFJacBlock where
  h : ℚ
  n : ℚ
  m : ℚ
  l : ℚ
deriving DecidableEq, Repr

def PFJacBlock.zero : PFJacBlock := ⟨0, 0, 0, 0⟩

/-- `ComplexPower<symmetric_t>` / `PolarPhasor<symmetric_t>`: a `(p,q)` or
`(theta,v)` pair.  Field names follow the `p()/q()` getters. -/
structure PQpair where
  p : ℚ
  q : ℚ
deriving DecidableEq, Repr

/-- `calculate_hnml`: `power_flow_ij = (ui @* conj(uj)) .* conj(yij)`;
`h = imag`, `n = real`, `m = -n`, `l = h`.  Scalar (symmetric) instance. -/
def calculate_hnml (yij ui uj : CQ) : PFJacBlock :=
  let power_flow_ij := CQ.cmul (CQ.cmul ui (CQ.cconj uj)) (CQ.cconj yij)
  ⟨power_flow_ij.im, power_flow_ij.re, -power_flow_ij.re, power_flow_ij.im⟩

/-- The slice of `YBus<sym>` consumed by
`prepare_matrix_and_rhs_from_network_perspective`: the LU sparsity pattern
(`row_indptr_lu`, `col_indices_lu`), the map from LU positions to admittance
positions (`map_lu_y_bus`, `-1` marking fill-ins), the admittance values and
the diagonal positions (`lu_diag`, passed in as `bus_entry`). -/
structure YBusS where
  n : ℕ
  indptr : ℕ → ℕ
  cols : ℕ → ℕ
  mapY : ℕ → ℤ
  ydata : ℕ → CQ
  busEntry : ℕ → ℕ

/-- The mutable state of the Newton–Raphson assembly: `data_jac_` and
`del_x_pq_`. -/
structure NRState where
  jac : ℕ → PFJacBlock
  pq : ℕ → PQpair

/-- Body of the inner `k` loop of
`prepare_matrix_and_rhs_from_network_perspective`: a fill-in entry is zeroed,
otherwise the block is computed by `calculate_hnml` and the negative power
injection is accumulated into `del_x_pq_[row]`. -/
def prepareEntry (Y : YBusS) (u : ℕ → CQ) (row : ℕ) (st : NRState) (k : ℕ) : NRState :=
  if Y.mapY k = -1 then
    { st with jac := upd st.jac k PFJacBlock.zero }
  else
    let j := Y.cols k
    let blk := calculate_hnml (Y.ydata (Y.mapY k).toNat) (u row) (u j)
    { jac := upd st.jac k blk
      pq := upd st.pq row ⟨(st.pq row).p - blk.n, (st.pq row).q - blk.h⟩ }

/-- One iteration of the outer `row` loop of
`prepare_matrix_and_rhs_from_network_perspective`: reset `del_x_pq_[row]`,
run the inner loop over the row's entries, then apply the diagonal
correction at `bus_entry[row]`. -/
def prepareRow (Y : YBusS) (u : ℕ → CQ) (st : NRState) (row : ℕ) : NRState :=
  let st1 : NRState := { st with pq := upd st.pq row ⟨0, 0⟩ }
  let st2 := (List.range' (Y.indptr row) (Y.indptr (row + 1) - Y.indptr row)).foldl
    (prepareEntry Y u row) st1
  let k := Y.busEntry row
  let pqr := st2.pq row
  let b := st2.jac k
  { st2 with jac := upd st2.jac k ⟨b.h + pqr.q, b.n - pqr.p, b.m - pqr.p, b.l - pqr.q⟩ }

/-- `prepare_matrix_and_rhs_from_network_perspective`. -/
def prepareNetwork (Y : YBusS) (u : ℕ → CQ) (st : NRState) : NRState :=
  (List.range' 0 Y.n).foldl (prepareRow Y u) st

/-! Specification-side quantities for claim C1, written independently from
the spec's formulas: `S_ij = U_i · conj(U_j) · conj(Y_ij)` and the per-row
calculated power sums over non-fill-in entries. -/

/-- The complex power-flow value `S_ij` for LU entry `k` of row `row`. -/
def powerFlowS (Y : YBusS) (u : ℕ → CQ) (row k : ℕ) : CQ :=
  CQ.cmul (CQ.cmul (u row) (CQ.cconj (u (Y.cols k)))) (CQ.cconj (Y.ydata (Y.mapY k).toNat))

/-- Row range of row `row` in the LU pattern. -/
def rowRange (Y : YBusS) (row : ℕ) : Finset ℕ :=
  Finset.Ico (Y.indptr row) (Y.indptr (row + 1))

/-- `P_cal_row`: sum of the `N` cells of all non-fill-in blocks of the row. -/
def Pcal (Y : YBusS) (u : ℕ → CQ) (row : ℕ) : ℚ :=
  ∑ k ∈ (rowRange Y row).filter (fun k => Y.mapY k ≠ -1), (powerFlowS Y u row k).re

/-- `Q_cal_row`: sum of the `H` cells of all non-fill-in blocks of the row. -/
def Qcal (Y : YBusS) (u : ℕ → CQ) (row : ℕ) : ℚ :=
  ∑ k ∈ (rowRange Y row).filter (fun k => Y.mapY k ≠ -1), (powerFlowS Y u row k).im

/-- The block claimed for a non-diagonal, non-fill-in entry `k`:
`H = Im S`, `N = Re S`, `M = -N`, `L = H`. -/
def claimedBlock (Y : YBusS) (u : ℕ → CQ) (row k : ℕ) : PFJacBlock :=
  if Y.mapY k = -1 then PFJacBlock.zero
  else ⟨(powerFlowS Y u row k).im, (powerFlowS Y u row k).re,
        -(powerFlowS Y u row k).re, (powerFlowS Y u row k).im⟩

/-- The additional diagonal correction claimed at `(i,i)`:
`H += -Q_cal`, `N -= -P_cal`, `M -= -P_cal`, `L -= -Q_cal`. -/
def claimedDiagCorrected (Y : YBusS) (u : ℕ → CQ) (row k : ℕ) : PFJacBlock :=
  let b := claimedBlock Y u row k
  ⟨b.h + -(Qcal Y u row), b.n - -(Pcal Y u row),
   b.m - -(Pcal Y u row), b.l - -(Qcal Y u row)⟩

/-! ### Claim C1: correctness of the network-perspective Jacobian assembly -/

theorem prepareEntry_jac (Y : YBusS) (u : ℕ → CQ) (row : ℕ) (st : NRState) (lo : ℕ) :
    (prepareEntry Y u row st lo).jac = upd st.jac lo (claimedBlock Y u row lo) := by
  by_cases hfill : Y.mapY lo = -1
  · simp only [prepareEntry, claimedBlock, if_pos hfill]
  · simp only [prepareEntry, claimedBlock, calculate_hnml, powerFlowS, if_neg hfill]

theorem prepareEntry_pq (Y : YBusS) (u : ℕ → CQ) (row : ℕ) (st : NRState) (lo : ℕ) :
    (prepareEntry Y u row st lo).pq = fun r =>
      if r = row then
        ⟨(st.pq row).p - (if Y.mapY lo = -1 then 0 else (powerFlowS Y u row lo).re),
         (st.pq row).q - (if Y.mapY lo = -1 then 0 else (powerFlowS Y u row lo).im)⟩
      else st.pq r := by
  funext r
  by_cases hfill : Y.mapY lo = -1
  · simp only [prepareEntry, if_pos hfill]
    by_cases hr : r = row
    · subst hr; simp
    · rw [if_neg hr]
  · simp only [prepareEntry, calculate_hnml, powerFlowS, if_neg hfill]
    by_cases hr : r = row
    · subst hr
      rw [upd_same, if_pos rfl]
    · rw [upd_other _ _ _ _ hr, if_neg hr]

theorem Pcal_eq_ite (Y : YBusS) (u : ℕ → CQ) (row : ℕ) :
    Pcal Y u row =
      ∑ k ∈ rowRange Y row, (if Y.mapY k = -1 then 0 else (powerFlowS Y u row k).re) := by
  rw [Pcal, Finset.sum_filter]
  congr 1
  funext k
  by_cases h : Y.mapY k = -1 <;> simp [h]

theorem Qcal_eq_ite (Y : YBusS) (u : ℕ → CQ) (row : ℕ) :
    Qcal Y u row =
      ∑ k ∈ rowRange Y row, (if Y.mapY k = -1 then 0 else (powerFlowS Y u row k).im) := by
  rw [Qcal, Finset.sum_filter]
  congr 1
  funext k
  by_cases h : Y.mapY k = -1 <;> simp [h]

theorem prepareEntry_loop_jac (Y : YBusS) (u : ℕ → CQ) (row : ℕ) :
    ∀ (len lo : ℕ) (st : NRState) (k : ℕ),
      ((List.range' lo len).foldl (prepareEntry Y u row) st).jac k =
        if lo ≤ k ∧ k < lo + len then claimedBlock Y u row k else st.jac k := by
  intro len
  induction len with
  | zero =>
    intro lo st k
    rw [show List.range' lo 0 = [] from rfl, List.foldl_nil, if_neg (by omega)]
  | succ m ih =>
    intro lo st k
    have hcons : List.range' lo (m + 1) = lo :: List.range' (lo + 1) m := by
      simpa using List.range'_succ lo m 1
    rw [hcons, List.foldl_cons, ih, prepareEntry_jac]
    by_cases h1 : lo + 1 ≤ k ∧ k < lo + 1 + m
    · rw [if_pos h1, if_pos (by omega)]
    · rw [if_neg h1]
      by_cases h2 : k = lo
      · subst h2; rw [upd_same, if_pos (by omega)]
      · rw [upd_other _ _ _ _ h2]
        by_cases h3 : lo ≤ k ∧ k < lo + (m + 1)
        · exact absurd h3 (by omega)
        · rw [if_neg h3]

theorem prepareEntry_loop_pq (Y : YBusS) (u : ℕ → CQ) (row : ℕ) :
    ∀ (len lo : ℕ) (st : NRState) (r : ℕ),
      ((List.range' lo len).foldl (prepareEntry Y u row) st).pq r =
        if r = row then
          ⟨(st.pq row).p - ∑ k ∈ Finset.Ico lo (lo + len),
              (if Y.mapY k = -1 then 0 else (powerFlowS Y u row k).re),
           (st.pq row).q - ∑ k ∈ Finset.Ico lo (lo + len),
              (if Y.mapY k = -1 then 0 else (powerFlowS Y u row k).im)⟩
        else st.pq r := by
  intro len
  induction len with
  | zero =>
    intro lo st r
    rw [show List.range' lo 0 = [] from rfl, List.foldl_nil]
    by_cases hr : r = row
    · subst hr
      rw [if_pos rfl]
      simp
    · rw [if_neg hr]
  | succ m ih =>
    intro lo st r
    have hcons : List.range' lo (m + 1) = lo :: List.range' (lo + 1) m := by
      simpa using List.range'_succ lo m 1
    rw [hcons, List.foldl_cons, ih]
    by_cases hr : r = row
    · rw [if_pos hr, if_pos hr]
      have hS := congrFun (prepareEntry_pq Y u row st lo) row
      rw [if_pos rfl] at hS
      have hsplitRe := Finset.sum_eq_sum_Ico_succ_bot (a := lo) (b := lo + (m + 1))
        (f := fun k => if Y.mapY k = -1 then (0 : ℚ) else (powerFlowS Y u row k).re)
        (by omega)
      have hsplitIm := Finset.sum_eq_sum_Ico_succ_bot (a := lo) (b := lo + (m + 1))
        (f := fun k => if Y.mapY k = -1 then (0 : ℚ) else (powerFlowS Y u row k).im)
        (by omega)
      have harith : lo + 1 + m = lo + (m + 1) := by omega
      simp only [hS]
      rw [harith, hsplitRe, hsplitIm]
      simp only [PQpair.mk.injEq]
      constructor <;> ring
    · rw [if_neg hr, if_neg hr]
      have hS := congrFun (prepareEntry_pq Y u row st lo) r
      rw [if_neg hr] at hS
      exact hS

theorem prepareRow_jac (Y : YBusS) (u : ℕ → CQ) (st : NRState) (row : ℕ)
    (hle : Y.indptr row ≤ Y.indptr (row + 1))
    (hbe : Y.busEntry row ∈ rowRange Y row) (k : ℕ) :
    (prepareRow Y u st row).jac k =
      if Y.indptr row ≤ k ∧ k < Y.indptr (row + 1) then
        (if k = Y.busEntry row then claimedDiagCorrected Y u row k
         else claimedBlock Y u row k)
      else st.jac k := by
  rw [rowRange, Finset.mem_Ico] at hbe
  have hhi : Y.indptr row + (Y.indptr (row + 1) - Y.indptr row) = Y.indptr (row + 1) :=
    Nat.add_sub_cancel' hle
  have hj : ∀ k', ((List.range' (Y.indptr row) (Y.indptr (row + 1) - Y.indptr row)).foldl
      (prepareEntry Y u row) { jac := st.jac, pq := upd st.pq row ⟨0, 0⟩ }).jac k' =
      if Y.indptr row ≤ k' ∧ k' < Y.indptr (row + 1) then claimedBlock Y u row k'
      else st.jac k' := by
    intro k'
    rw [prepareEntry_loop_jac, hhi]
  have hq : ((List.range' (Y.indptr row) (Y.indptr (row + 1) - Y.indptr row)).foldl
      (prepareEntry Y u row) { jac := st.jac, pq := upd st.pq row ⟨0, 0⟩ }).pq row =
      ⟨-(Pcal Y u row), -(Qcal Y u row)⟩ := by
    rw [prepareEntry_loop_pq, if_pos rfl, hhi, Pcal_eq_ite, Qcal_eq_ite, rowRange]
    show (⟨(upd st.pq row ⟨0, 0⟩ row).p - _, (upd st.pq row ⟨0, 0⟩ row).q - _⟩ : PQpair) = _
    rw [upd_same]
    simp only [PQpair.mk.injEq]
    constructor <;> ring
  simp only [prepareRow]
  by_cases h2 : k = Y.busEntry row
  · rw [h2, upd_same, hj (Y.busEntry row), hq, if_pos hbe, if_pos hbe, if_pos rfl]
    rw [claimedDiagCorrected]
  · rw [upd_other _ _ _ _ h2, hj k]
    by_cases h1 : Y.indptr row ≤ k ∧ k < Y.indptr (row + 1)
    · rw [if_pos h1, if_pos h1, if_neg h2]
    · rw [if_neg h1, if_neg h1]

theorem prepareRow_pq (Y : YBusS) (u : ℕ → CQ) (st : NRState) (row : ℕ)
    (hle : Y.indptr row ≤ Y.indptr (row + 1)) (r : ℕ) :
    (prepareRow Y u st row).pq r =
      if r = row then ⟨-(Pcal Y u row), -(Qcal Y u row)⟩ else st.pq r := by
  have hhi : Y.indptr row + (Y.indptr (row + 1) - Y.indptr row) = Y.indptr (row + 1) :=
    Nat.add_sub_cancel' hle
  simp only [prepareRow]
  rw [prepareEntry_loop_pq]
  by_cases hr : r = row
  · rw [if_pos hr, if_pos hr, hhi, Pcal_eq_ite, Qcal_eq_ite, rowRange]
    show (⟨(upd st.pq row ⟨0, 0⟩ row).p - _, (upd st.pq row ⟨0, 0⟩ row).q - _⟩ : PQpair) = _
    rw [upd_same]
    simp only [PQpair.mk.injEq]
    constructor <;> ring
  · rw [if_neg hr, if_neg hr]
    show upd st.pq row ⟨0, 0⟩ r = st.pq r
    rw [upd_other _ _ _ _ hr]

theorem prepareNetwork_loop (Y : YBusS) (u : ℕ → CQ) (st : NRState)
    (hmono : ∀ i, Y.indptr i ≤ Y.indptr (i + 1))
    (hbe : ∀ r, r < Y.n → Y.busEntry r ∈ rowRange Y r) :
    ∀ m, m ≤ Y.n → ∀ row, row < m →
      (∀ k ∈ rowRange Y row,
        ((List.range' 0 m).foldl (prepareRow Y u) st).jac k =
          (if k = Y.busEntry row then claimedDiagCorrected Y u row k
           else claimedBlock Y u row k))
      ∧ ((List.range' 0 m).foldl (prepareRow Y u) st).pq row =
          ⟨-(Pcal Y u row), -(Qcal Y u row)⟩ := by
  have hmono' : Monotone Y.indptr := monotone_nat_of_le_succ hmono
  intro m
  induction m with
  | zero => intro _ row hrow; omega
  | succ m ih =>
    intro hm row hrow
    rw [List.range'_1_concat, List.foldl_append, List.foldl_cons, List.foldl_nil,
      Nat.zero_add]
    by_cases hcase : row = m
    · subst hcase
      constructor
      · intro k hk
        have hk' := hk
        rw [rowRange, Finset.mem_Ico] at hk'
        rw [prepareRow_jac Y u _ row (hmono row) (hbe row (by omega)) k, if_pos hk']
      · rw [prepareRow_pq Y u _ row (hmono row), if_pos rfl]
    · have hrow' : row < m := by omega
      obtain ⟨ihjac, ihpq⟩ := ih (by omega) row hrow'
      constructor
      · intro k hk
        have hk' := hk
        rw [rowRange, Finset.mem_Ico] at hk'
        have hup : k < Y.indptr m := lt_of_lt_of_le hk'.2 (hmono' (by omega))
        rw [prepareRow_jac Y u _ m (hmono m) (hbe m (by omega)) k, if_neg (by omega)]
        exact ihjac k hk
      · rw [prepareRow_pq Y u _ m (hmono m), if_neg hcase]
        exact ihpq

/-- C1: after `prepare_matrix_and_rhs_from_network_perspective` for voltages
`u`, every non-fill-in entry `k` of row `row` holds the block
`H = Im S, N = Re S, M = -N, L = H` with `S = U_row · conj(U_col) · conj(Y)`,
fill-in entries hold the zero block, the diagonal entry additionally receives
`H += -Q_cal`, `N -= -P_cal`, `M -= -P_cal`, `L -= -Q_cal`, and
`del_pq_row = (-P_cal, -Q_cal)` where `P_cal`/`Q_cal` are the row sums of the
`N`/`H` cells of the row's non-fill-in blocks. -/
theorem C1_prepare_matrix_and_rhs_network (Y : YBusS) (u : ℕ → CQ) (st : NRState)
    (hmono : ∀ i, Y.indptr i ≤ Y.indptr (i + 1))
    (hbe : ∀ r, r < Y.n → Y.busEntry r ∈ rowRange Y r)
    (row : ℕ) (hrow : row < Y.n) :
    (∀ k ∈ rowRange Y row,
      (prepareNetwork Y u st).jac k =
        (if k = Y.busEntry row then claimedDiagCorrected Y u row k
         else claimedBlock Y u row k))
    ∧ (prepareNetwork Y u st).pq row = ⟨-(Pcal Y u row), -(Qcal Y u row)⟩ :=
  prepareNetwork_loop Y u st hmono hbe Y.n le_rfl row hrow

/-- A concrete one-bus system used to witness the assembly theorem. -/
def Yw : YBusS := ⟨1, fun i => i, fun _ => 0, fun _ => 0, fun _ => ⟨1, 1⟩, fun _ => 0⟩

def uw : ℕ → CQ := fun _ => ⟨2, 1⟩

def stInit : NRState := ⟨fun _ => PFJacBlock.zero, fun _ => ⟨0, 0⟩⟩

theorem C1_prepare_matrix_and_rhs_network_witness :
    (prepareNetwork Yw uw stInit).jac 0 =
        (if 0 = Yw.busEntry 0 then claimedDiagCorrected Yw uw 0 0
         else claimedBlock Yw uw 0 0)
      ∧ (prepareNetwork Yw uw stInit).pq 0 = ⟨-(Pcal Yw uw 0), -(Qcal Yw uw 0)⟩ := by
  have h := C1_prepare_matrix_and_rhs_network Yw uw stInit (fun i => Nat.le_succ i)
    (by
      intro r hr
      have hn : Yw.n = 1 := rfl
      rw [hn] at hr
      have hr0 : r = 0 := by omega
      subst hr0
      decide) 0 (by decide)
  exact ⟨h.1 0 (by decide), h.2⟩

/-!
### Claim C6: load/generator contributions by type

`add_loads` dispatches on `LoadGenType`; the three cases update `del_x_pq_`
and the diagonal Jacobian block.  In symmetric mode `x_[i].v()` is the scalar
voltage magnitude and `add_diag` is scalar addition.
-/

inductive LoadGenType where
  | const_pq : LoadGenType
  | const_y : LoadGenType
  | const_i : LoadGenType
deriving DecidableEq, Repr

/-- `PowerFlowInput<sym>::s_injection`. -/
structure PowerFlowInputS where
  sInjection : ℕ → CQ

/-- `PolarPhasor<symmetric_t>` in its `(theta, v)` reading: the solver state
`x_`. -/
structure Polar where
  theta : ℚ
  v : ℚ
deriving DecidableEq, Repr

/-- `add_const_power_load`: `PQ_sp = PQ_base`; no Jacobian change. -/
def add_const_power_load (input : PowerFlowInputS) (bus load : ℕ) (st : NRState) :
    NRState :=
  let newpq : PQpair :=
    ⟨(st.pq bus).p + (input.sInjection load).re,
     (st.pq bus).q + (input.sInjection load).im⟩
  { st with pq := upd st.pq bus newpq }

/-- `add_const_impedance_load`: `PQ_sp = PQ_base * V^2`;
`N += -PQ_base.re * 2 * V^2`, `L += -PQ_base.im * 2 * V^2` on the diagonal. -/
def add_const_impedance_load (input : PowerFlowInputS) (x : ℕ → Polar)
    (bus load diag : ℕ) (st : NRState) : NRState :=
  let newpq : PQpair :=
    ⟨(st.pq bus).p + (input.sInjection load).re * (x bus).v * (x bus).v,
     (st.pq bus).q + (input.sInjection load).im * (x bus).v * (x bus).v⟩
  let st1 : NRState := { st with pq := upd st.pq bus newpq }
  let b := st1.jac diag
  let newb : PFJacBlock :=
    ⟨b.h, b.n + -(input.sInjection load).re * 2 * (x bus).v * (x bus).v,
     b.m, b.l + -(input.sInjection load).im * 2 * (x bus).v * (x bus).v⟩
  { st1 with jac := upd st1.jac diag newb }

/-- `add_const_current_load`: `PQ_sp = PQ_base * V`;
`N += -PQ_base.re * V`, `L += -PQ_base.im * V` on the diagonal. -/
def add_const_current_load (input : PowerFlowInputS) (x : ℕ → Polar)
    (bus load diag : ℕ) (st : NRState) : NRState :=
  let newpq : PQpair :=
    ⟨(st.pq bus).p + (input.sInjection load).re * (x bus).v,
     (st.pq bus).q + (input.sInjection load).im * (x bus).v⟩
  let st1 : NRState := { st with pq := upd st.pq bus newpq }
  let b := st1.jac diag
  let newb : PFJacBlock :=
    ⟨b.h, b.n + -(input.sInjection load).re * (x bus).v,
     b.m, b.l + -(input.sInjection load).im * (x bus).v⟩
  { st1 with jac := upd st1.jac diag newb }

/-- The body of the loop in `add_loads`: dispatch on the load type. -/
def add_one_load (input : PowerFlowInputS) (x : ℕ → Polar)
    (load_gen_type : ℕ → LoadGenType) (bus diag : ℕ) (st : NRState) (load : ℕ) :
    NRState :=
  match load_gen_type load with
  | LoadGenType.const_pq => add_const_power_load input bus load st
  | LoadGenType.const_y => add_const_impedance_load input x bus load diag st
  | LoadGenType.const_i => add_const_current_load input x bus load diag st

/-- `add_loads`: iterate over the bus's load/generator list. -/
def add_loads (input : PowerFlowInputS) (x : ℕ → Polar)
    (load_gen_type : ℕ → LoadGenType) (bus diag : ℕ) (loads : List ℕ)
    (st : NRState) : NRState :=
  loads.foldl (add_one_load input x load_gen_type bus diag) st

theorem add_const_power_load_pq (input : PowerFlowInputS) (bus load : ℕ)
    (st : NRState) (r : ℕ) :
    (add_const_power_load input bus load st).pq r =
      if r = bus then
        ⟨(st.pq bus).p + (input.sInjection load).re,
         (st.pq bus).q + (input.sInjection load).im⟩
      else st.pq r := by
  simp only [add_const_power_load, upd]

theorem add_const_power_load_jac (input : PowerFlowInputS) (bus load : ℕ)
    (st : NRState) :
    (add_const_power_load input bus load st).jac = st.jac := rfl

theorem add_const_impedance_load_pq (input : PowerFlowInputS) (x : ℕ → Polar)
    (bus load diag : ℕ) (st : NRState) (r : ℕ) :
    (add_const_impedance_load input x bus load diag st).pq r =
      if r = bus then
        ⟨(st.pq bus).p + (input.sInjection load).re * (x bus).v * (x bus).v,
         (st.pq bus).q + (input.sInjection load).im * (x bus).v * (x bus).v⟩
      else st.pq r := by
  simp only [add_const_impedance_load, upd]

theorem add_const_impedance_load_jac (input : PowerFlowInputS) (x : ℕ → Polar)
    (bus load diag : ℕ) (st : NRState) (k : ℕ) :
    (add_const_impedance_load input x bus load diag st).jac k =
      if k = diag then
        ⟨(st.jac diag).h,
         (st.jac diag).n + -(input.sInjection load).re * 2 * (x bus).v * (x bus).v,
         (st.jac diag).m,
         (st.jac diag).l + -(input.sInjection load).im * 2 * (x bus).v * (x bus).v⟩
      else st.jac k := by
  simp only [add_const_impedance_load, upd]

theorem add_const_current_load_pq (input : PowerFlowInputS) (x : ℕ → Polar)
    (bus load diag : ℕ) (st : NRState) (r : ℕ) :
    (add_const_current_load input x bus load diag st).pq r =
      if r = bus then
        ⟨(st.pq bus).p + (input.sInjection load).re * (x bus).v,
         (st.pq bus).q + (input.sInjection load).im * (x bus).v⟩
      else st.pq r := by
  simp only [add_const_current_load, upd]

theorem add_const_current_load_jac (input : PowerFlowInputS) (x : ℕ → Polar)
    (bus load diag : ℕ) (st : NRState) (k : ℕ) :
    (add_const_current_load input x bus load diag st).jac k =
      if k = diag then
        ⟨(st.jac diag).h,
         (st.jac diag).n + -(input.sInjection load).re * (x bus).v,
         (st.jac diag).m,
         (st.jac diag).l + -(input.sInjection load).im * (x bus).v⟩
      else st.jac k := by
  simp only [add_const_current_load, upd]

/-- C6: per-load effect of `add_loads` on the mismatch vector and the diagonal
Jacobian block, for each of the three load types.  Writing
`P + jQ = s_injection[load]` and `V = x_[bus].v()`:
constant-PQ adds `(P, Q)` to `del_pq[bus]` and leaves the Jacobian unchanged;
constant-current adds `(P·V, Q·V)` and subtracts `P·V` from `N` and `Q·V`
from `L` of the diagonal block; constant-impedance adds `(P·V², Q·V²)` and
subtracts `2·P·V²` from `N` and `2·Q·V²` from `L`; nothing else changes. -/
theorem C6_add_loads_types (input : PowerFlowInputS) (x : ℕ → Polar)
    (lgt : ℕ → LoadGenType) (bus diag load : ℕ) (st : NRState)
    (P Q V : ℚ) (hP : P = (input.sInjection load).re)
    (hQ : Q = (input.sInjection load).im) (hV : V = (x bus).v) :
    (lgt load = LoadGenType.const_pq →
      (add_one_load input x lgt bus diag st load).pq bus =
          ⟨(st.pq bus).p + P, (st.pq bus).q + Q⟩
      ∧ (add_one_load input x lgt bus diag st load).jac = st.jac
      ∧ ∀ r, r ≠ bus → (add_one_load input x lgt bus diag st load).pq r = st.pq r)
    ∧ (lgt load = LoadGenType.const_i →
      (add_one_load input x lgt bus diag st load).pq bus =
          ⟨(st.pq bus).p + P * V, (st.pq bus).q + Q * V⟩
      ∧ (add_one_load input x lgt bus diag st load).jac diag =
          ⟨(st.jac diag).h, (st.jac diag).n - P * V,
           (st.jac diag).m, (st.jac diag).l - Q * V⟩
      ∧ (∀ k, k ≠ diag → (add_one_load input x lgt bus diag st load).jac k = st.jac k)
      ∧ ∀ r, r ≠ bus → (add_one_load input x lgt bus diag st load).pq r = st.pq r)
    ∧ (lgt load = LoadGenType.const_y →
      (add_one_load input x lgt bus diag st load).pq bus =
          ⟨(st.pq bus).p + P * V * V, (st.pq bus).q + Q * V * V⟩
      ∧ (add_one_load input x lgt bus diag st load).jac diag =
          ⟨(st.jac diag).h, (st.jac diag).n - 2 * P * V * V,
           (st.jac diag).m, (st.jac diag).l - 2 * Q * V * V⟩
      ∧ (∀ k, k ≠ diag → (add_one_load input x lgt bus diag st load).jac k = st.jac k)
      ∧ ∀ r, r ≠ bus → (add_one_load input x lgt bus diag st load).pq r = st.pq r) := by
  subst hP hQ hV
  refine ⟨fun ht => ?_, fun ht => ?_, fun ht => ?_⟩ <;>
    simp only [add_one_load, ht]
  · refine ⟨?_, rfl, fun r hr => ?_⟩
    · rw [add_const_power_load_pq, if_pos rfl]
    · rw [add_const_power_load_pq, if_neg hr]
  · refine ⟨?_, ?_, fun k hk => ?_, fun r hr => ?_⟩
    · rw [add_const_current_load_pq, if_pos rfl]
    · rw [add_const_current_load_jac, if_pos rfl]
      simp only [PFJacBlock.mk.injEq]
      refine ⟨trivial, by ring, trivial, by ring⟩
    · rw [add_const_current_load_jac, if_neg hk]
    · rw [add_const_current_load_pq, if_neg hr]
  · refine ⟨?_, ?_, fun k hk => ?_, fun r hr => ?_⟩
    · rw [add_const_impedance_load_pq, if_pos rfl]
    · rw [add_const_impedance_load_jac, if_pos rfl]
      simp only [PFJacBlock.mk.injEq]
      refine ⟨trivial, by ring, trivial, by ring⟩
    · rw [add_const_impedance_load_jac, if_neg hk]
    · rw [add_const_impedance_load_pq, if_neg hr]

def inputW : PowerFlowInputS := ⟨fun _ => ⟨1, 2⟩⟩

def xW : ℕ → Polar := fun _ => ⟨0, 3⟩

def lgtW : ℕ → LoadGenType := fun _ => LoadGenType.const_i

theorem C6_add_loads_types_witness :
    (add_one_load inputW xW lgtW 0 5 stInit 0).pq 0 =
        ⟨(stInit.pq 0).p + 1 * 3, (stInit.pq 0).q + 2 * 3⟩
      ∧ (add_one_load inputW xW lgtW 0 5 stInit 0).jac 5 =
        ⟨(stInit.jac 5).h, (stInit.jac 5).n - 1 * 3,
         (stInit.jac 5).m, (stInit.jac 5).l - 2 * 3⟩ :=
  let h := (C6_add_loads_types inputW xW lgtW 0 5 0 stInit 1 2 3 rfl rfl rfl).2.1 rfl
  ⟨h.1, h.2.1⟩

/-!
### Claim C5: `iterate_unknown`

Generic over the number of phases: `p + 1` phases (`p = 0` is the symmetric
scalar case, `p = 2` the asymmetric three-phase case).  Voltages are
phase-indexed complex vectors; `exp` and `cabs` act componentwise and
`max_val` takes the maximum over phases.
-/

/-- `max_val`: maximum entry of a phase vector. -/
noncomputable def maxVal {p : ℕ} (f : Fin (p + 1) → ℝ) : ℝ :=
  Finset.univ.sup' Finset.univ_nonempty f

/-- `PolarPhasor` over `p + 1` phases: the `(theta, v)` reading. -/
structure PolarV (p : ℕ) where
  theta : Fin (p + 1) → ℝ
  v : Fin (p + 1) → ℝ

/-- The mutable data of `iterate_unknown`: `x_`, the caller's `u`, and the
running `max_dev`. -/
structure IterState (p : ℕ) where
  x : ℕ → PolarV p
  u : ℕ → Fin (p + 1) → ℂ
  maxdev : ℝ

/-- Body of the bus loop of `iterate_unknown`: update angle and magnitude,
recompute `u_tmp = v * exp(1i*theta)`, take the deviation from the previous
`u[i]`, store `u[i] = u_tmp`. -/
noncomputable def iterateBus {p : ℕ} (del : ℕ → PolarV p) (s : IterState p) (i : ℕ) :
    IterState p :=
  let θ : Fin (p + 1) → ℝ := fun ph => (s.x i).theta ph + (del i).theta ph
  let v : Fin (p + 1) → ℝ := fun ph => (s.x i).v ph + (s.x i).v ph * (del i).v ph
  let u_tmp : Fin (p + 1) → ℂ := fun ph =>
    (v ph : ℂ) * Complex.exp (Complex.I * (θ ph : ℂ))
  let dev : ℝ := maxVal fun ph => Complex.abs (u_tmp ph - s.u i ph)
  { x := upd s.x i ⟨θ, v⟩, u := upd s.u i u_tmp, maxdev := max dev s.maxdev }

/-- `iterate_unknown`: loop over all buses starting from `max_dev = 0`. -/
noncomputable def iterate_unknown {p : ℕ} (del : ℕ → PolarV p) (n : ℕ)
    (x : ℕ → PolarV p) (u : ℕ → Fin (p + 1) → ℂ) : IterState p :=
  (List.range' 0 n).foldl (iterateBus del) ⟨x, u, 0⟩

/-- Specification side: the updated polar state of bus `i`:
`theta += del_theta`, `v += v * (del_v)`. -/
def newX {p : ℕ} (x : ℕ → PolarV p) (del : ℕ → PolarV p) (i : ℕ) : PolarV p :=
  ⟨fun ph => (x i).theta ph + (del i).theta ph,
   fun ph => (x i).v ph + (x i).v ph * (del i).v ph⟩

/-- Specification side: the recomputed voltage `U_i = V_i * exp(j*theta_i)`. -/
noncomputable def newU {p : ℕ} (x : ℕ → PolarV p) (del : ℕ → PolarV p) (i : ℕ) :
    Fin (p + 1) → ℂ := fun ph =>
  ((newX x del i).v ph : ℂ) * Complex.exp (Complex.I * ((newX x del i).theta ph : ℂ))

/-- Specification side: the absolute deviation of bus `i`, infinity norm
across phases. -/
noncomputable def devSpec {p : ℕ} (x del : ℕ → PolarV p)
    (u : ℕ → Fin (p + 1) → ℂ) (i : ℕ) : ℝ :=
  maxVal fun ph => Complex.abs (newU x del i ph - u i ph)

theorem devSpec_nonneg {p : ℕ} (x del : ℕ → PolarV p) (u : ℕ → Fin (p + 1) → ℂ)
    (i : ℕ) : 0 ≤ devSpec x del u i := by
  have h := Finset.le_sup' (fun ph => Complex.abs (newU x del i ph - u i ph))
    (Finset.mem_univ (0 : Fin (p + 1)))
  exact le_trans (AbsoluteValue.nonneg Complex.abs (newU x del i 0 - u i 0)) h

theorem iterateBus_eq {p : ℕ} (del : ℕ → PolarV p) (s : IterState p) (i : ℕ) :
    iterateBus del s i =
      { x := upd s.x i ⟨fun ph => (s.x i).theta ph + (del i).theta ph,
                        fun ph => (s.x i).v ph + (s.x i).v ph * (del i).v ph⟩
        u := upd s.u i (fun ph =>
          (((s.x i).v ph + (s.x i).v ph * (del i).v ph : ℝ) : ℂ) *
            Complex.exp (Complex.I * (((s.x i).theta ph + (del i).theta ph : ℝ) : ℂ)))
        maxdev := max (maxVal fun ph =>
          Complex.abs ((((s.x i).v ph + (s.x i).v ph * (del i).v ph : ℝ) : ℂ) *
              Complex.exp (Complex.I * (((s.x i).theta ph + (del i).theta ph : ℝ) : ℂ)) -
            s.u i ph)) s.maxdev } := rfl

theorem iterate_unknown_loop {p : ℕ} (del : ℕ → PolarV p) (x : ℕ → PolarV p)
    (u : ℕ → Fin (p + 1) → ℂ) :
    ∀ m,
      (∀ i, i < m →
        ((List.range' 0 m).foldl (iterateBus del) ⟨x, u, 0⟩).x i = newX x del i
        ∧ ((List.range' 0 m).foldl (iterateBus del) ⟨x, u, 0⟩).u i = newU x del i)
      ∧ (∀ i, m ≤ i →
        ((List.range' 0 m).foldl (iterateBus del) ⟨x, u, 0⟩).x i = x i
        ∧ ((List.range' 0 m).foldl (iterateBus del) ⟨x, u, 0⟩).u i = u i)
      ∧ (∀ i, i < m →
        devSpec x del u i ≤ ((List.range' 0 m).foldl (iterateBus del) ⟨x, u, 0⟩).maxdev)
      ∧ (((List.range' 0 m).foldl (iterateBus del) ⟨x, u, 0⟩).maxdev = 0
        ∨ ∃ i, i < m ∧
            ((List.range' 0 m).foldl (iterateBus del) ⟨x, u, 0⟩).maxdev
              = devSpec x del u i) := by
  intro m
  induction m with
  | zero =>
    refine ⟨fun i hi => by omega, fun i _ => ⟨rfl, rfl⟩, fun i hi => by omega, Or.inl rfl⟩
  | succ m ih =>
    obtain ⟨ihdone, ihnew, ihle, ihmax⟩ := ih
    rw [List.range'_1_concat, List.foldl_append, List.foldl_cons, List.foldl_nil,
      Nat.zero_add]
    set s := (List.range' 0 m).foldl (iterateBus del) (⟨x, u, 0⟩ : IterState p) with hs
    have hxm : s.x m = x m := (ihnew m le_rfl).1
    have hum : s.u m = u m := (ihnew m le_rfl).2
    have hdev : (maxVal fun ph =>
        Complex.abs ((((s.x m).v ph + (s.x m).v ph * (del m).v ph : ℝ) : ℂ) *
            Complex.exp (Complex.I * (((s.x m).theta ph + (del m).theta ph : ℝ) : ℂ)) -
          s.u m ph)) = devSpec x del u m := by
      rw [hxm, hum]
      rfl
    refine ⟨?_, ?_, ?_, ?_⟩
    · intro i hi
      rw [iterateBus_eq]
      by_cases him : i = m
      · subst him
        constructor
        · show upd s.x i _ i = _
          rw [upd_same, hxm]
          rfl
        · show upd s.u i _ i = _
          rw [upd_same, hxm]
          rfl
      · have hi' : i < m := by omega
        constructor
        · show upd s.x m _ i = _
          rw [upd_other _ _ _ _ him]
          exact (ihdone i hi').1
        · show upd s.u m _ i = _
          rw [upd_other _ _ _ _ him]
          exact (ihdone i hi').2
    · intro i hi
      rw [iterateBus_eq]
      have him : i ≠ m := by omega
      constructor
      · show upd s.x m _ i = _
        rw [upd_other _ _ _ _ him]
        exact (ihnew i (by omega)).1
      · show upd s.u m _ i = _
        rw [upd_other _ _ _ _ him]
        exact (ihnew i (by omega)).2
    · intro i hi
      rw [iterateBus_eq]
      show devSpec x del u i ≤ max _ s.maxdev
      by_cases him : i = m
      · subst him
        rw [hdev]
        exact le_max_left _ _
      · exact le_trans (ihle i (by omega)) (le_max_right _ _)
    · rw [iterateBus_eq]
      show _ ∨ ∃ i, i < m + 1 ∧ max _ s.maxdev = devSpec x del u i
      rcases max_choice (maxVal fun ph =>
          Complex.abs ((((s.x m).v ph + (s.x m).v ph * (del m).v ph : ℝ) : ℂ) *
              Complex.exp (Complex.I * (((s.x m).theta ph + (del m).theta ph : ℝ) : ℂ)) -
            s.u m ph)) s.maxdev with hmx | hmx
      · right
        exact ⟨m, by omega, by rw [hmx, hdev]⟩
      · rcases ihmax with h0 | ⟨i, hi, hieq⟩
        · left
          rw [hmx, h0]
        · right
          exact ⟨i, by omega, by rw [hmx, hieq]⟩

/-- C5: `iterate_unknown` updates each bus by `theta_i += del_theta_i`,
`V_i += V_i * del_v_i`, recomputes `U_i = V_i * exp(j*theta_i)` in place in
the caller's vector, and returns the maximum over all buses of the absolute
deviation `|U_new_i - U_prev_i|` (infinity norm across the phases). -/
theorem C5_iterate_unknown {p : ℕ} (del : ℕ → PolarV p) (n : ℕ)
    (x : ℕ → PolarV p) (u : ℕ → Fin (p + 1) → ℂ) :
    (∀ i, i < n →
      (iterate_unknown del n x u).x i = newX x del i
      ∧ (iterate_unknown del n x u).u i = newU x del i)
    ∧ (∀ i, n ≤ i →
      (iterate_unknown del n x u).x i = x i ∧ (iterate_unknown del n x u).u i = u i)
    ∧ (∀ i, i < n → devSpec x del u i ≤ (iterate_unknown del n x u).maxdev)
    ∧ (0 < n → ∃ i, i < n ∧ (iterate_unknown del n x u).maxdev = devSpec x del u i) := by
  obtain ⟨h1, h2, h3, h4⟩ := iterate_unknown_loop del x u n
  refine ⟨h1, h2, h3, fun hn => ?_⟩
  rcases h4 with h0 | hex
  · refine ⟨0, hn, ?_⟩
    have hle := h3 0 hn
    have hge := devSpec_nonneg x del u 0
    rw [iterate_unknown] at *
    rw [h0] at hle ⊢
    linarith
  · exact hex

/-- Witness for C5 at a one-bus symmetric system with zero increment. -/
noncomputable def delW : ℕ → PolarV 0 := fun _ => ⟨fun _ => 0, fun _ => 0⟩

noncomputable def xV : ℕ → PolarV 0 := fun _ => ⟨fun _ => 0, fun _ => 1⟩

noncomputable def uV : ℕ → Fin 1 → ℂ := fun _ _ => 1

theorem C5_iterate_unknown_witness :
    ((iterate_unknown delW 1 xV uV).x 0 = newX xV delW 0
      ∧ (iterate_unknown delW 1 xV uV).u 0 = newU xV delW 0)
    ∧ devSpec xV delW uV 0 ≤ (iterate_unknown delW 1 xV uV).maxdev := by
  obtain ⟨h1, _, h3, _⟩ := C5_iterate_unknown delW 1 xV uV
  exact ⟨h1 0 Nat.one_pos, h3 0 Nat.one_pos⟩

/-!
## Sparse LU solver, scalar mode

`SparseLUSolver<Tensor, RHSVector, XVector>` with scalar entries
(`is_block = false`, `block_size = 1`).  Scalars are `ℚ`; `cabs` is `|·|`,
`dot` is multiplication.  In exact arithmetic `is_normal x` holds iff
`x ≠ 0` (no NaN, infinity or subnormal exists), and
`sqrt(cwiseAbs2 x) = |x|`.
-/

/-- `epsilon = std::numeric_limits<double>::epsilon() = 2^-52`. -/
def epsQ : ℚ := 1 / 2 ^ 52

/-- `epsilon_perturbation = 1e-13`. -/
def epsPerturbation : ℚ := 1 / 10 ^ 13

/-- `cap_back_error_denominator = 1e-4`. -/
def capBackError : ℚ := 1 / 10 ^ 4

/-- `max_iterative_refinement = 5`. -/
def maxIterativeRefinement : ℕ := 5

/-- `std::numeric_limits<double>::max()`, the initial backward error. -/
def dblMaxQ : ℚ := (2 - 1 / 2 ^ 52) * 2 ^ 1023

/-- `is_normal` in exact arithmetic: no NaNs, infinities or subnormal numbers
exist, so a value is normal iff it is nonzero. -/
def is_normal (x : ℚ) : Bool := x ≠ 0

/-- `perturb_pivot_if_needed` (scalar): returns the updated
`(value, abs_value, has_pivot_perturbation)`. -/
def perturb_pivot_if_needed (perturb_threshold value abs_value : ℚ) (flag : Bool) :
    ℚ × ℚ × Bool :=
  if abs_value < perturb_threshold then
    let scale : ℚ := if abs_value = 0 then 1 else value / abs_value
    (scale * perturb_threshold, perturb_threshold, true)
  else (value, abs_value, flag)

/-- The shared symbolic pattern of `SparseLUSolver`: `size_`, `row_indptr_`,
`col_indices_`, `diag_lu_`. -/
structure SPattern where
  size : ℕ
  indptr : ℕ → ℕ
  cols : ℕ → ℕ
  diag : ℕ → ℕ

/-- `initialize_pivot_perturbation`'s norm: block-wise non-diagonal infinity
norm; in scalar mode `max_r Σ_{c ≠ r} |A[r,c]|`. -/
def matrixNormOff (P : SPattern) (data : ℕ → ℚ) : ℚ :=
  (List.range' 0 P.size).foldl (fun acc row =>
    let rowNorm := (List.range' (P.indptr row) (P.indptr (row + 1) - P.indptr row)).foldl
      (fun rn idx => if P.cols idx = row then rn else rn + |data idx|) 0
    max acc rowNorm) 0

/-- `std::lower_bound` on `col_indices` over `[lo, hi)`: the first position
whose column is `≥ target`, or `hi` when there is none. -/
def lowerBoundAux (cols : ℕ → ℕ) (target : ℕ) : ℕ → ℕ → ℕ
  | lo, 0 => lo
  | lo, len + 1 => if target ≤ cols lo then lo else lowerBoundAux cols target (lo + 1) len

def lowerBound (cols : ℕ → ℕ) (lo hi target : ℕ) : ℕ :=
  lowerBoundAux cols target lo (hi - lo)

/-- State of the in-place scalar factorization: the LU data, the running
`col_position_idx`, the `has_pivot_perturbation_` flag, and (as a proof-side
record kept alongside, not affecting the computation) the list of diagonal
pivot values examined at each pivot step before any perturbation. -/
structure FactState where
  lu : ℕ → ℚ
  colpos : ℕ → ℕ
  flag : Bool
  pivots : List ℚ

/-- One step of the Schur-complement inner loop of `prefactorize`: locate
`(l_row, u_col)` by `std::lower_bound` starting from the running `a_idx`,
and subtract `l * U(pivot, u_col)` there.  `l` is the C++ reference
`lu_matrix[l_idx]`, read at use time. -/
def schurStep (P : SPattern) (l_row l_idx : ℕ) (st : (ℕ → ℚ) × ℕ) (u_idx : ℕ) :
    (ℕ → ℚ) × ℕ :=
  let u_col := P.cols u_idx
  let found := lowerBound P.cols st.2 (P.indptr (l_row + 1)) u_col
  (upd st.1 found (st.1 found - st.1 l_idx * st.1 u_idx), found)

/-- One iteration of the `l_ref_idx` loop of `prefactorize` (scalar branch):
divide the `L` entry by the pivot, run the Schur update along the pivot row,
and advance `col_position_idx[l_row]`. -/
def elimRowStep (P : SPattern) (pivot_row_col pivot_idx : ℕ) (st : FactState)
    (l_ref_idx : ℕ) : FactState :=
  let l_row := P.cols l_ref_idx
  let l_idx := st.colpos l_row
  let lu1 := upd st.lu l_idx (st.lu l_idx / st.lu pivot_idx)
  let lu2 := ((List.range' (pivot_idx + 1)
      (P.indptr (pivot_row_col + 1) - (pivot_idx + 1))).foldl
    (schurStep P l_row l_idx) (lu1, l_idx)).1
  { st with lu := lu2, colpos := upd st.colpos l_row (st.colpos l_row + 1) }

/-- One pivot step of the scalar `prefactorize`: optional pivot perturbation,
the `is_normal` check (`throw SparseMatrixError`), then elimination of the
rows below the pivot. -/
def factStep (P : SPattern) (usePert : Bool) (threshold : ℚ) (st : FactState)
    (pivot_row_col : ℕ) : Except Unit FactState :=
  let pivot_idx := P.diag pivot_row_col
  let v := st.lu pivot_idx
  let st1 : FactState :=
    if usePert then
      let r := perturb_pivot_if_needed threshold v |v| st.flag
      { st with lu := upd st.lu pivot_idx r.1, flag := r.2.2, pivots := st.pivots ++ [v] }
    else { st with pivots := st.pivots ++ [v] }
  if is_normal (st1.lu pivot_idx) then
    let st2 := (List.range' (pivot_idx + 1)
        (P.indptr (pivot_row_col + 1) - (pivot_idx + 1))).foldl
      (elimRowStep P pivot_row_col pivot_idx) st1
    Except.ok { st2 with colpos := upd st2.colpos pivot_row_col (st2.colpos pivot_row_col + 1) }
  else Except.error ()

/-- Scalar `prefactorize`: compute the perturbation threshold, then run the
pivot loop.  On success it returns the factorized state together with the
computed `matrix_norm_`. -/
def prefactorizeScalar (P : SPattern) (data : ℕ → ℚ) (usePert : Bool) :
    Except Unit (FactState × ℚ) :=
  let norm := if usePert then matrixNormOff P data else 0
  let threshold := epsPerturbation * norm
  let st0 : FactState := ⟨data, P.indptr, false, []⟩
  ((List.range' 0 P.size).foldlM (factStep P usePert threshold) st0).map
    (fun st => (st, norm))

/-- Forward-substitution body for one row of the scalar `solve_once`:
`x[row] = rhs[row]`, then subtract `L`-contributions of columns left of the
diagonal. -/
def fwdRow (P : SPattern) (lu rhs : ℕ → ℚ) (x : ℕ → ℚ) (row : ℕ) : ℕ → ℚ :=
  let x1 := upd x row (rhs row)
  (List.range' (P.indptr row) (P.diag row - P.indptr row)).foldl
    (fun xc l_idx => upd xc row (xc row - lu l_idx * xc (P.cols l_idx))) x1

/-- Backward-substitution body for one row of the scalar `solve_once`:
subtract `U`-contributions right of the diagonal (walked right to left), then
divide by the diagonal. -/
def bwdRow (P : SPattern) (lu : ℕ → ℚ) (x : ℕ → ℚ) (row : ℕ) : ℕ → ℚ :=
  let x1 := ((List.range' (P.diag row + 1) (P.indptr (row + 1) - (P.diag row + 1))).reverse).foldl
    (fun xc u_idx => upd xc row (xc row - lu u_idx * xc (P.cols u_idx))) x
  upd x1 row (x1 row / lu (P.diag row))

/-- Scalar `solve_once` with distinct `rhs` and `x` buffers. -/
def solveOnceScalar (P : SPattern) (lu rhs x : ℕ → ℚ) : ℕ → ℚ :=
  let xf := (List.range' 0 P.size).foldl (fwdRow P lu rhs) x
  ((List.range' 0 P.size).reverse).foldl (bwdRow P lu) xf

/-- Scalar `solve_once` when the `rhs` and `x` arguments are bound to the
same buffer, as `NewtonRaphsonPFSolver::solve_matrix` does with `del_x_pq_`:
each forward row reads its right-hand side from the shared evolving buffer. -/
def solveOnceScalarAliased (P : SPattern) (lu b : ℕ → ℚ) : ℕ → ℚ :=
  let xf := (List.range' 0 P.size).foldl (fun xc row => fwdRow P lu xc xc row) b
  ((List.range' 0 P.size).reverse).foldl (bwdRow P lu) xf

/-- `calculate_residual`: `residual[row] = rhs[row] - Σ_idx A[idx] * x[col(idx)]`
over the preserved original matrix. -/
def calcResidual (P : SPattern) (orig rhsv xv res : ℕ → ℚ) : ℕ → ℚ :=
  (List.range' 0 P.size).foldl (fun r row =>
    upd r row ((List.range' (P.indptr row) (P.indptr (row + 1) - P.indptr row)).foldl
      (fun acc idx => acc - orig idx * xv (P.cols idx)) (rhsv row))) res

/-- `iterate_and_backward_error`: compute row denominators
`|b_r| + Σ |A[r,c]|·|x_c|` and their maximum, cap each denominator from below
by `cap_back_error_denominator` times the maximum, take the maximal piecewise
backward error `|res_r| / denom_r`, and update `x += dx`. -/
def iterBackErr (P : SPattern) (orig rhsv res dx xv : ℕ → ℚ) : ℚ × (ℕ → ℚ) :=
  let dm := (List.range' 0 P.size).foldl (fun (acc : (ℕ → ℚ) × ℚ) row =>
    let denominator := (List.range' (P.indptr row) (P.indptr (row + 1) - P.indptr row)).foldl
      (fun a idx => a + |orig idx| * |xv (P.cols idx)|) |rhsv row|
    (upd acc.1 row denominator, max acc.2 denominator)) (fun _ => 0, 0)
  let minden := capBackError * dm.2
  (List.range' 0 P.size).foldl (fun (acc : ℚ × (ℕ → ℚ)) row =>
    let numerator := |res row|
    let berr := numerator / max (dm.1 row) minden
    (max acc.1 berr, upd acc.2 row (acc.2 row + dx row))) (0, xv)

/-- The `while` loop of `solve_with_refinement`.  The C++ loop counts
`num_iter` upward and throws when `num_iter++ == max_iterative_refinement + 1`;
here `fuel = max_iterative_refinement + 2 - num_iter` counts down, so the
throw fires at `fuel = 1` and the `fuel = 0` case is never reached from the
initial call. -/
def refineGo (P : SPattern) (lu orig rhsv : ℕ → ℚ) :
    ℕ → (ℕ → ℚ) → (ℕ → ℚ) → (ℕ → ℚ) → ℚ → Except Unit (ℕ → ℚ)
  | 0, _, _, _, _ => Except.error ()
  | f + 1, x, res, dx, berr =>
    if berr ≤ epsPerturbation then Except.ok x
    else if f = 0 then Except.error ()
    else
      let dx1 := solveOnceScalar P lu res dx
      let bx := iterBackErr P orig rhsv res dx1 x
      let res1 := calcResidual P orig rhsv bx.2 res
      refineGo P lu orig rhsv f bx.2 res1 dx1 bx.1

/-- `solve_with_refinement` (scalar): save the right-hand side, zero `x`,
initialize the residual to the right-hand side and `dx` to the zeroed `x`,
then iterate; the initial backward error is `DBL_MAX`. -/
def solveWithRefinement (P : SPattern) (lu orig rhsv x : ℕ → ℚ) :
    Except Unit (ℕ → ℚ) :=
  let x0 := (List.range' 0 P.size).foldl (fun xc row => upd xc row 0) x
  refineGo P lu orig rhsv (maxIterativeRefinement + 2) x0 rhsv x0 dblMaxQ

/-! ### Claim C10: aliasing `x` with `rhs` in `solve_once` is harmless -/

theorem foldl_upd_row_other (row : ℕ) (g : (ℕ → ℚ) → ℕ → ℚ) (l : List ℕ)
    (x : ℕ → ℚ) (j : ℕ) (hj : j ≠ row) :
    (l.foldl (fun xc i => upd xc row (g xc i)) x) j = x j := by
  induction l generalizing x with
  | nil => rfl
  | cons a l ih => rw [List.foldl_cons, ih, upd_other _ _ _ _ hj]

theorem fwdRow_other (P : SPattern) (lu rhs x : ℕ → ℚ) (row j : ℕ) (hj : j ≠ row) :
    fwdRow P lu rhs x row j = x j := by
  unfold fwdRow
  rw [foldl_upd_row_other _ _ _ _ _ hj, upd_other _ _ _ _ hj]

theorem fwdRow_rhs_congr (P : SPattern) (lu rhs1 rhs2 x : ℕ → ℚ) (row : ℕ)
    (h : rhs1 row = rhs2 row) :
    fwdRow P lu rhs1 x row = fwdRow P lu rhs2 x row := by
  unfold fwdRow
  rw [h]

theorem fwd_aliased_eq (P : SPattern) (lu b : ℕ → ℚ) :
    ∀ m,
      (List.range' 0 m).foldl (fun xc row => fwdRow P lu xc xc row) b =
        (List.range' 0 m).foldl (fwdRow P lu b) b
      ∧ ∀ j, m ≤ j → ((List.range' 0 m).foldl (fwdRow P lu b) b) j = b j := by
  intro m
  induction m with
  | zero => exact ⟨rfl, fun j _ => rfl⟩
  | succ m ih =>
    obtain ⟨iheq, ihkeep⟩ := ih
    rw [List.range'_1_concat, Nat.zero_add]
    simp only [List.foldl_append, List.foldl_cons, List.foldl_nil]
    constructor
    · rw [iheq]
      exact fwdRow_rhs_congr P lu _ b _ m (ihkeep m le_rfl)
    · intro j hj
      rw [fwdRow_other P lu b _ m j (by omega)]
      exact ihkeep j (by omega)

/-- C10: calling the scalar `solve_once` with the right-hand side and the
solution bound to the same buffer (as `solve_matrix` does with `del_x_pq_`)
yields exactly the result of calling it with `x` a distinct copy of `rhs`:
in the forward pass, `rhs[row]` is read only at the step that overwrites
index `row`, which no earlier row has touched, and the backward pass never
reads `rhs`. -/
theorem C10_solve_once_aliased (P : SPattern) (lu b : ℕ → ℚ) :
    solveOnceScalarAliased P lu b = solveOnceScalar P lu b b := by
  unfold solveOnceScalarAliased solveOnceScalar
  rw [(fwd_aliased_eq P lu b P.size).1]

/-! ### Claim C9: the Schur-complement lower-bound search is safe -/

theorem lowerBoundAux_spec (cols : ℕ → ℕ) (target : ℕ) :
    ∀ (len lo : ℕ),
      lo ≤ lowerBoundAux cols target lo len
      ∧ lowerBoundAux cols target lo len ≤ lo + len
      ∧ (∀ i, lo ≤ i → i < lowerBoundAux cols target lo len → cols i < target)
      ∧ (lowerBoundAux cols target lo len < lo + len →
          target ≤ cols (lowerBoundAux cols target lo len)) := by
  intro len
  induction len with
  | zero =>
    intro lo
    simp only [lowerBoundAux]
    refine ⟨le_rfl, by omega, fun i h1 h2 => by omega, fun h => by omega⟩
  | succ m ih =>
    intro lo
    by_cases h : target ≤ cols lo
    · simp only [lowerBoundAux, if_pos h]
      refine ⟨le_rfl, by omega, fun i h1 h2 => by omega, fun _ => h⟩
    · simp only [lowerBoundAux, if_neg h]
      obtain ⟨ih1, ih2, ih3, ih4⟩ := ih (lo + 1)
      refine ⟨by omega, by omega, fun i h1 h2 => ?_, fun hlt => ih4 (by omega)⟩
      by_cases hi : i = lo
      · subst hi; omega
      · exact ih3 i (by omega) h2

/-- A position `(r, c)` is present in the sparsity pattern. -/
def memPat (P : SPattern) (r c : ℕ) : Prop :=
  ∃ idx, P.indptr r ≤ idx ∧ idx < P.indptr (r + 1) ∧ P.cols idx = c

/-- C9: in the Schur-complement update, under a symmetric pattern closed
under fill-in of the elimination order and sorted column indices per row,
the bounded `std::lower_bound` search for `u_col` in row `l_row`, started at
the running position `a_idx` (whose column is still left of `u_col`), finds
a position strictly inside the row's index range whose column equals
`u_col`; the subtraction therefore targets a valid pre-allocated entry. -/
theorem C9_schur_lower_bound_safe (P : SPattern)
    (hsorted : ∀ r i j, P.indptr r ≤ i → i < j → j < P.indptr (r + 1) →
      P.cols i < P.cols j)
    (hsym : ∀ r c, memPat P r c → memPat P c r)
    (hclosed : ∀ r c piv, piv < r → piv < c → memPat P r piv → memPat P piv c →
      memPat P r c)
    (pivot l_row u_col a_idx : ℕ)
    (hlrow : memPat P pivot l_row) (hucol : memPat P pivot u_col)
    (hl : pivot < l_row) (hu : pivot < u_col)
    (ha_lo : P.indptr l_row ≤ a_idx) (ha_hi : a_idx < P.indptr (l_row + 1))
    (ha_col : P.cols a_idx < u_col) :
    lowerBound P.cols a_idx (P.indptr (l_row + 1)) u_col < P.indptr (l_row + 1)
    ∧ P.cols (lowerBound P.cols a_idx (P.indptr (l_row + 1)) u_col) = u_col := by
  have hmem : memPat P l_row u_col :=
    hclosed l_row u_col pivot hl hu (hsym pivot l_row hlrow) hucol
  obtain ⟨pos, hp1, hp2, hp3⟩ := hmem
  have hapos : a_idx < pos := by
    rcases lt_trichotomy pos a_idx with hc | hc | hc
    · have := hsorted l_row pos a_idx hp1 hc ha_hi
      omega
    · subst hc; omega
    · exact hc
  obtain ⟨hs1, hs2, hs3, hs4⟩ := lowerBoundAux_spec P.cols u_col
    (P.indptr (l_row + 1) - a_idx) a_idx
  have hhi : a_idx + (P.indptr (l_row + 1) - a_idx) = P.indptr (l_row + 1) := by omega
  rw [hhi] at hs2 hs4
  set fd := lowerBoundAux P.cols u_col a_idx (P.indptr (l_row + 1) - a_idx) with hfd
  have hfdpos : fd ≤ pos := by
    by_contra hcon
    have := hs3 pos (by omega) (by omega)
    omega
  have hfdlt : fd < P.indptr (l_row + 1) := by omega
  have hge : u_col ≤ P.cols fd := hs4 hfdlt
  have hfdeq : fd = pos := by
    by_contra hcon
    have hlt : fd < pos := by omega
    have := hsorted l_row fd pos (by omega) hlt hp2
    omega
  rw [lowerBound]
  rw [← hfd]
  rw [hfdeq]
  exact ⟨by omega, hp3⟩

/-- A concrete dense 2×2 pattern witnessing the search theorem. -/
def Pw : SPattern := ⟨2, fun r => min (2 * r) 4, fun k => k % 2, fun r => 2 * r + r % 2⟩

theorem Pw_indptr (r : ℕ) : Pw.indptr r = min (2 * r) 4 := rfl

theorem Pw_cols (k : ℕ) : Pw.cols k = k % 2 := rfl

theorem Pw_sorted : ∀ r i j, Pw.indptr r ≤ i → i < j → j < Pw.indptr (r + 1) →
    Pw.cols i < Pw.cols j := by
  intro r i j h1 h2 h3
  rw [Pw_indptr] at h1
  rw [Pw_indptr] at h3
  rw [Pw_cols, Pw_cols]
  omega

theorem Pw_sym : ∀ r c, memPat Pw r c → memPat Pw c r := by
  rintro r c ⟨idx, h1, h2, h3⟩
  rw [Pw_indptr] at h1
  rw [Pw_indptr] at h2
  rw [Pw_cols] at h3
  exact ⟨2 * c + r, by rw [Pw_indptr]; omega, by rw [Pw_indptr]; omega,
    by rw [Pw_cols]; omega⟩

theorem Pw_closed : ∀ r c piv, piv < r → piv < c → memPat Pw r piv →
    memPat Pw piv c → memPat Pw r c := by
  rintro r c piv hr hc ⟨i1, g1, g2, g3⟩ ⟨i2, k1, k2, k3⟩
  rw [Pw_indptr] at g1 g2
  rw [Pw_cols] at g3
  rw [Pw_indptr] at k1 k2
  rw [Pw_cols] at k3
  exact ⟨2 * r + c, by rw [Pw_indptr]; omega, by rw [Pw_indptr]; omega,
    by rw [Pw_cols]; omega⟩

theorem C9_schur_lower_bound_safe_witness :
    lowerBound Pw.cols 2 (Pw.indptr 2) 1 < Pw.indptr 2
    ∧ Pw.cols (lowerBound Pw.cols 2 (Pw.indptr 2) 1) = 1 :=
  C9_schur_lower_bound_safe Pw Pw_sorted Pw_sym Pw_closed 0 1 1 2
    ⟨1, by decide, by decide, by decide⟩ ⟨1, by decide, by decide, by decide⟩
    (by decide) (by decide) (by decide) (by decide) (by decide)

/-! ### Claim C4: pivot perturbation -/

/-- Specification side: `Σ_{c ≠ r} |A[r,c]|`, the off-diagonal row sum. -/
def rowOffSum (P : SPattern) (data : ℕ → ℚ) (r : ℕ) : ℚ :=
  ∑ k ∈ (Finset.Ico (P.indptr r) (P.indptr (r + 1))).filter (fun k => P.cols k ≠ r),
    |data k|

theorem fold_skip_sum (g : ℕ → ℚ) (p : ℕ → Bool) :
    ∀ (len lo : ℕ) (init : ℚ),
      (List.range' lo len).foldl (fun a i => if p i then a else a + g i) init =
        init + ∑ k ∈ Finset.Ico lo (lo + len), (if p k then 0 else g k) := by
  intro len
  induction len with
  | zero =>
    intro lo init
    rw [show List.range' lo 0 = [] from rfl, List.foldl_nil]
    simp
  | succ m ih =>
    intro lo init
    have hcons : List.range' lo (m + 1) = lo :: List.range' (lo + 1) m := by
      simpa using List.range'_succ lo m 1
    rw [hcons, List.foldl_cons, ih]
    have hsplit := Finset.sum_eq_sum_Ico_succ_bot (a := lo) (b := lo + (m + 1))
      (f := fun k => if p k then (0 : ℚ) else g k) (by omega)
    have harith : lo + 1 + m = lo + (m + 1) := by omega
    rw [harith, hsplit]
    by_cases hp : p lo
    · rw [if_pos hp, if_pos hp]
      ring
    · rw [if_neg hp, if_neg hp]
      ring

theorem rowOffSum_fold_eq (P : SPattern) (data : ℕ → ℚ) (row : ℕ) :
    (List.range' (P.indptr row) (P.indptr (row + 1) - P.indptr row)).foldl
      (fun rn idx => if P.cols idx = row then rn else rn + |data idx|) 0 =
      rowOffSum P data row := by
  have h := fold_skip_sum (fun idx => |data idx|) (fun idx => P.cols idx = row)
    (P.indptr (row + 1) - P.indptr row) (P.indptr row) 0
  by_cases hle : P.indptr row ≤ P.indptr (row + 1)
  · rw [show (fun rn idx => if P.cols idx = row then rn else rn + |data idx|) =
        (fun a i => if (fun idx => decide (P.cols idx = row)) i then a
          else a + |data i|) from ?_]
    · rw [h, Nat.add_sub_cancel' hle, rowOffSum, Finset.sum_filter]
      rw [zero_add]
      congr 1
      funext k
      by_cases hc : P.cols k = row
      · simp [hc]
      · simp [hc]
    · funext a i
      by_cases hc : P.cols i = row
      · simp [hc]
      · simp [hc]
  · have hz : P.indptr (row + 1) - P.indptr row = 0 := by omega
    rw [hz, show List.range' (P.indptr row) 0 = [] from rfl, List.foldl_nil]
    rw [rowOffSum]
    have : Finset.Ico (P.indptr row) (P.indptr (row + 1)) = ∅ := by
      rw [Finset.Ico_eq_empty_iff]
      omega
    rw [this]
    simp

theorem foldl_max_char (f : ℕ → ℚ) :
    ∀ n : ℕ,
      (∀ i, i < n → f i ≤ (List.range' 0 n).foldl (fun a i => max a (f i)) 0)
      ∧ ((List.range' 0 n).foldl (fun a i => max a (f i)) 0 = 0
        ∨ ∃ i, i < n ∧ (List.range' 0 n).foldl (fun a i => max a (f i)) 0 = f i) := by
  intro n
  induction n with
  | zero => exact ⟨fun i hi => by omega, Or.inl rfl⟩
  | succ m ih =>
    obtain ⟨ihle, ihch⟩ := ih
    rw [List.range'_1_concat, Nat.zero_add, List.foldl_append, List.foldl_cons,
      List.foldl_nil]
    constructor
    · intro i hi
      by_cases him : i = m
      · subst him
        exact le_max_right _ _
      · exact le_trans (ihle i (by omega)) (le_max_left _ _)
    · rcases max_choice ((List.range' 0 m).foldl (fun a i => max a (f i)) 0) (f m) with
        hmx | hmx
      · rw [hmx]
        rcases ihch with h0 | ⟨i, hi, hieq⟩
        · exact Or.inl h0
        · exact Or.inr ⟨i, by omega, hieq⟩
      · exact Or.inr ⟨m, by omega, hmx⟩

theorem matrixNormOff_char (P : SPattern) (data : ℕ → ℚ) :
    (∀ r, r < P.size → rowOffSum P data r ≤ matrixNormOff P data)
    ∧ (matrixNormOff P data = 0
      ∨ ∃ r, r < P.size ∧ matrixNormOff P data = rowOffSum P data r) := by
  have hbody : matrixNormOff P data =
      (List.range' 0 P.size).foldl (fun a i => max a (rowOffSum P data i)) 0 := by
    rw [matrixNormOff]
    apply List.foldl_ext
    intro a row _
    rw [rowOffSum_fold_eq]
  rw [hbody]
  exact foldl_max_char (rowOffSum P data) P.size

/-- The perturbation rule of `perturb_pivot_if_needed`: a value whose
magnitude is below the threshold is rescaled to `value * threshold / |value|`
(to `+threshold` when it is zero), giving magnitude exactly the threshold and
setting the flag; otherwise nothing changes. -/
theorem perturb_pivot_spec (t v : ℚ) (flag : Bool) :
    (|v| < t →
      (perturb_pivot_if_needed t v |v| flag).1 = (if v = 0 then 1 else v / |v|) * t
      ∧ |(perturb_pivot_if_needed t v |v| flag).1| = t
      ∧ (perturb_pivot_if_needed t v |v| flag).2.1 = t
      ∧ (perturb_pivot_if_needed t v |v| flag).2.2 = true)
    ∧ (¬ |v| < t → perturb_pivot_if_needed t v |v| flag = (v, |v|, flag)) := by
  constructor
  · intro hlt
    have ht : 0 < t := lt_of_le_of_lt (abs_nonneg v) hlt
    simp only [perturb_pivot_if_needed, if_pos hlt]
    refine ⟨?_, ?_, by trivial, by trivial⟩
    · by_cases hv : v = 0
      · simp [hv, abs_eq_zero]
      · rw [if_neg (by simpa [abs_eq_zero] using hv), if_neg hv]
    · by_cases hv : v = 0
      · rw [if_pos (by simpa [abs_eq_zero] using hv)]
        rw [one_mul, abs_of_pos ht]
      · rw [if_neg (by simpa [abs_eq_zero] using hv)]
        rw [abs_mul, abs_div, abs_abs, div_self (by simpa [abs_eq_zero] using hv),
          one_mul, abs_of_pos ht]
  · intro hge
    simp only [perturb_pivot_if_needed, if_neg hge]

theorem elimRowStep_flag (P : SPattern) (a b : ℕ) (st : FactState) (i : ℕ) :
    (elimRowStep P a b st i).flag = st.flag ∧
      (elimRowStep P a b st i).pivots = st.pivots := ⟨rfl, rfl⟩

theorem elimRun_flag (P : SPattern) (a b : ℕ) :
    ∀ (l : List ℕ) (st : FactState),
      ((l.foldl (elimRowStep P a b) st).flag = st.flag
      ∧ (l.foldl (elimRowStep P a b) st).pivots = st.pivots) := by
  intro l
  induction l with
  | nil => exact fun st => ⟨rfl, rfl⟩
  | cons x xs ih =>
    intro st
    rw [List.foldl_cons]
    obtain ⟨h1, h2⟩ := ih (elimRowStep P a b st x)
    exact ⟨h1, h2⟩

theorem factStep_false_ok (P : SPattern) (t : ℚ) (st : FactState) (p : ℕ)
    (st' : FactState) (h : factStep P false t st p = Except.ok st') :
    st'.flag = st.flag := by
  simp only [factStep, Bool.false_eq_true, if_false] at h
  split at h
  · cases h
    exact (elimRun_flag P p (P.diag p)
      (List.range' (P.diag p + 1) (P.indptr (p + 1) - (P.diag p + 1)))
      { st with pivots := st.pivots ++ [st.lu (P.diag p)] }).1
  · cases h

theorem factRun_false_flag (P : SPattern) (t : ℚ) :
    ∀ (l : List ℕ) (st st' : FactState),
      List.foldlM (factStep P false t) st l = Except.ok st' → st'.flag = st.flag := by
  intro l
  induction l with
  | nil =>
    intro st st' h
    cases h
    rfl
  | cons x xs ih =>
    intro st st' h
    rw [List.foldlM_cons] at h
    cases hx : factStep P false t st x with
    | error e => rw [hx] at h; cases h
    | ok st1 =>
      rw [hx] at h
      have hflag := ih st1 st' h
      rw [hflag, factStep_false_ok P t st x st1 hx]

theorem factStep_true_inv (P : SPattern) (t : ℚ) (st : FactState) (p : ℕ)
    (st' : FactState) (h : factStep P true t st p = Except.ok st')
    (hinv : st.flag = true ↔ ∃ v ∈ st.pivots, |v| < t) :
    st'.flag = true ↔ ∃ v ∈ st'.pivots, |v| < t := by
  simp only [factStep, eq_self_iff_true, if_true] at h
  split at h
  · cases h
    have he := elimRun_flag P p (P.diag p)
      (List.range' (P.diag p + 1) (P.indptr (p + 1) - (P.diag p + 1)))
      { st with
        lu := upd st.lu (P.diag p)
          (perturb_pivot_if_needed t (st.lu (P.diag p)) |st.lu (P.diag p)| st.flag).1
        flag := (perturb_pivot_if_needed t (st.lu (P.diag p)) |st.lu (P.diag p)| st.flag).2.2
        pivots := st.pivots ++ [st.lu (P.diag p)] }
    simp only [he.1, he.2]
    by_cases hlt : |st.lu (P.diag p)| < t
    · simp only [perturb_pivot_if_needed, if_pos hlt]
      simp only [List.mem_append, List.mem_singleton]
      constructor
      · intro _
        exact ⟨st.lu (P.diag p), Or.inr rfl, hlt⟩
      · intro _
        trivial
    · simp only [perturb_pivot_if_needed, if_neg hlt]
      rw [hinv]
      constructor
      · rintro ⟨v, hv, hvt⟩
        exact ⟨v, List.mem_append_left _ hv, hvt⟩
      · rintro ⟨v, hv, hvt⟩
        rcases List.mem_append.mp hv with hv1 | hv1
        · exact ⟨v, hv1, hvt⟩
        · rw [List.mem_singleton] at hv1
          subst hv1
          exact absurd hvt hlt
  · cases h

theorem factRun_true_inv (P : SPattern) (t : ℚ) :
    ∀ (l : List ℕ) (st st' : FactState),
      List.foldlM (factStep P true t) st l = Except.ok st' →
      (st.flag = true ↔ ∃ v ∈ st.pivots, |v| < t) →
      (st'.flag = true ↔ ∃ v ∈ st'.pivots, |v| < t) := by
  intro l
  induction l with
  | nil =>
    intro st st' h hinv
    cases h
    exact hinv
  | cons x xs ih =>
    intro st st' h hinv
    rw [List.foldlM_cons] at h
    cases hx : factStep P true t st x with
    | error e => rw [hx] at h; cases h
    | ok st1 =>
      rw [hx] at h
      exact ih st1 st' h (factStep_true_inv P t st x st1 hx hinv)

/-- C4: pivot perturbation.  (i) With `use_pivot_perturbation = false` the
factorization sets no perturbation flag and computes no norm.  (ii) The
precomputed norm is `‖A‖_off = max_r Σ_{c≠r} |A[r,c]|`: it dominates every
off-diagonal row sum and is attained by one of them (or the matrix has no
off-diagonal mass).  (iii) A pivot whose magnitude is below the threshold is
replaced by `value·threshold/|value|` (`+threshold` when zero), the perturbed
pivot has magnitude exactly the threshold, and the flag is set; a pivot at or
above the threshold is left untouched.  (iv) After a successful perturbed
factorization the flag is set exactly when at least one examined pivot fell
below `1e-13 · ‖A‖_off`. -/
theorem C4_pivot_perturbation (P : SPattern) (data : ℕ → ℚ) :
    (∀ st nrm, prefactorizeScalar P data false = Except.ok (st, nrm) →
      st.flag = false ∧ nrm = 0)
    ∧ (∀ r, r < P.size → rowOffSum P data r ≤ matrixNormOff P data)
    ∧ (matrixNormOff P data = 0
      ∨ ∃ r, r < P.size ∧ matrixNormOff P data = rowOffSum P data r)
    ∧ (∀ t v flag,
        (|v| < t →
          (perturb_pivot_if_needed t v |v| flag).1 = (if v = 0 then 1 else v / |v|) * t
          ∧ |(perturb_pivot_if_needed t v |v| flag).1| = t
          ∧ (perturb_pivot_if_needed t v |v| flag).2.2 = true)
        ∧ (¬ |v| < t → perturb_pivot_if_needed t v |v| flag = (v, |v|, flag)))
    ∧ (∀ st nrm, prefactorizeScalar P data true = Except.ok (st, nrm) →
        (st.flag = true ↔ ∃ v ∈ st.pivots, |v| < epsPerturbation * nrm)) := by
  refine ⟨?_, (matrixNormOff_char P data).1, (matrixNormOff_char P data).2, ?_, ?_⟩
  · intro st nrm h
    simp only [prefactorizeScalar, Bool.false_eq_true, if_false, Except.map] at h
    cases hrun : List.foldlM (factStep P false (epsPerturbation * 0))
        (⟨data, P.indptr, false, []⟩ : FactState) (List.range' 0 P.size) with
    | error e => rw [hrun] at h; cases h
    | ok stf =>
      rw [hrun] at h
      cases h
      exact ⟨factRun_false_flag P _ _ _ _ hrun, rfl⟩
  · intro t v flag
    obtain ⟨h1, h2⟩ := perturb_pivot_spec t v flag
    exact ⟨fun hlt => ⟨(h1 hlt).1, (h1 hlt).2.1, (h1 hlt).2.2.2⟩, h2⟩
  · intro st nrm h
    simp only [prefactorizeScalar, if_true, Except.map] at h
    cases hrun : List.foldlM (factStep P true (epsPerturbation * matrixNormOff P data))
        (⟨data, P.indptr, false, []⟩ : FactState) (List.range' 0 P.size) with
    | error e => rw [hrun] at h; cases h
    | ok stf =>
      rw [hrun] at h
      cases h
      exact factRun_true_inv P _ _ _ _ hrun (by simp)

theorem C4_pivot_perturbation_witness :
    (perturb_pivot_if_needed 1 0 |(0 : ℚ)| false).1 =
        (if (0 : ℚ) = 0 then 1 else 0 / |(0 : ℚ)|) * 1
    ∧ |(perturb_pivot_if_needed 1 0 |(0 : ℚ)| false).1| = 1
    ∧ (perturb_pivot_if_needed 1 0 |(0 : ℚ)| false).2.2 = true :=
  ((C4_pivot_perturbation Pw (fun _ => 1)).2.2.2.1 1 0 false).1 (by decide)

/-!
### Claim C8: the post-solve residual bound

A concrete perturbed-mode run refutes the claimed bound for the returned
solution: the backward-error test is evaluated at the iterate `x_meas`
*before* the final correction `x += dx` is applied, so the returned
`x = x_meas + dx` carries one extra solve whose residual is not controlled
by the termination test.  The witness system below is executed exactly
(stage by stage, with every intermediate state spelled out as the exact
rational values the algorithm computes).
-/

set_option maxRecDepth 4000

def PC8 : SPattern := ⟨3, fun r => 3 * r, fun k => k % 3, fun r => 4 * r⟩

def dataC8 : ℕ → ℚ :=
  fun k => [5000000000000, -(1/10^10), 5000000000000, -(1/10^6), 1/10^13,
    1/10^14, -1, 1000000, 1/10^15].getD k 0

def bC8 : ℕ → ℚ := fun r => [-3, 1/3, 1/10^6].getD r 0

def luD : ℕ → ℚ :=
  upd
    (upd
      (upd
        (upd
          (upd
            (upd
              (upd
                (upd
                  (upd (upd (upd dataC8 0 5000000000000) 3 (-(1 / 5000000000000000000))) 4
                    (4999999999999999 / 50000000000000000000000000000))
                  5 (100000001 / 100000000000000))
                6 (-(1 / 5000000000000)))
              7 (49999999999999999999999999999 / 50000000000000000000000))
            8 (1000000000000001 / 1000000000000000))
          4 (50000000000000000000001 / 100000000000000000000000))
        7 (99999999999999999999999999998 / 50000000000000000000001))
      8 (-(50000000999999949999998999997999999979 / 50000000000000000000001000000000000000)))
    8 (-(50000000999999949999998999997999999979 / 50000000000000000000001000000000000000))

def x0D : ℕ → ℚ := upd (upd (upd (fun _ => 0) 0 0) 1 0) 2 0

def dx1D : ℕ → ℚ :=
  upd
    (upd
      (upd
        (upd
          (upd
            (upd
              (upd
                (upd
                  (upd
                    (upd (upd (upd (upd (upd (upd (fun _ => 0) 0 0) 1 0) 2 0) 0 (-3)) 1 (1 / 3)) 1
                      (4999999999999999991 / 15000000000000000000))
                    2 (1 / 1000000))
                  2 (4999997 / 5000000000000))
                2 (-(249999999999624999774999999994999992500004500009 / 375000000000000000000007500000000000000000)))
              2 (249999999999624999774999999994999992500004500009 / 375000007499999624999992499984999999842500))
            1
            (-(83333333333083416664168334833333178334999950000029999997 /
                250000004999999749999994999989999999895000000000000000000)))
          1 (-(99999999999700099997000001799999820000 / 150000002999999849999996999993999999937)))
        0 (-(499999999999250000000000008989999534999999999999999999811 / 150000002999999849999996999993999999937)))
      0
      (-(4385964912274122807017543938596487149122543947365789473605263 /
          1315789499999998684210499999947368420500000)))
    0
    (-(4385964912274122807017543938596487149122543947365789473605263 /
        6578947499999993421052499999736842102500000000000000000))

theorem hdx1 : solveOnceScalar PC8 luD bC8 x0D = dx1D := by
  norm_num [solveOnceScalar, fwdRow, bwdRow, luD, x0D, dx1D, upd, List.range', dataC8,
    PC8, bC8, List.foldl, max_def, abs]

def x1D : ℕ → ℚ :=
  upd
    (upd
      (upd (upd (upd (upd (fun _ => 0) 0 0) 1 0) 2 0) 0
        (-(4385964912274122807017543938596487149122543947365789473605263 /
            6578947499999993421052499999736842102500000000000000000)))
      1 (-(99999999999700099997000001799999820000 / 150000002999999849999996999993999999937)))
    2 (249999999999624999774999999994999992500004500009 / 375000007499999624999992499984999999842500)

theorem hib1 : iterBackErr PC8 dataC8 bC8 bC8 dx1D x0D = (1, x1D) := by
  norm_num [iterBackErr, dx1D, x0D, x1D, upd, List.range', dataC8, PC8, bC8, capBackError,
    List.foldl, max_def, abs]

def res1D : ℕ → ℚ :=
  upd
    (upd (upd bC8 0 0) 1
      (-(124999999999600124996252577230000517502034930044895000085499991 /
          375000007499999624999992499984999999842500000000000000000000000)))
    2 0

theorem hres1 : calcResidual PC8 dataC8 bC8 x1D bC8 = res1D := by
  norm_num [calcResidual, x1D, res1D, upd, List.range', dataC8, PC8, bC8, List.foldl,
    max_def, abs]

def dx2D : ℕ → ℚ :=
  upd (upd (upd (upd (upd (upd (upd (upd (upd (upd (upd (upd (dx1D) 0 (0)) 1 (-(124999999999600124996252577230000517502034930044895000085499991 / 375000007499999624999992499984999999842500000000000000000000000))) 1 (-(124999999999600124996252577230000517502034930044895000085499991 / 375000007499999624999992499984999999842500000000000000000000000))) 2 (0)) 2 (0)) 2 (6249999999980006249812628861375025875102146377248497427044999032497965069955104999914500009 / 9375000187499990624999999999628749995874999996249992499999921250000000000000000000000)) 2 (-(6249999999980006249812628861375025875102146377248497427044999032497965069955104999914500009 / 9375000374999984999999249999251874977500000596250022875015157500315000001653750000000))) 1 (2083333333326670833270917947168758429326868084949151743845085468970016562500556810011965000028499997 / 6250000249999989999999499999501249985000000397500015250010105000210000001102500000000000000000000000)) 1 (124999999999600249996252576830125513754612160045412502120430035895000085499991 / 187500007499999699999984999985037499550000011925000457500303150006300000033075)) 0 (24999999999920024999250515445500103500408585508993989708179996129991860279820419999658000036000 / 7500000299999987999999399999401499982000000477000018300012126000252000001323)) 0 (109649122806666776312502260728070629387749940828855263225879378004431179473693289509384737629736843605263 / 32894738157894684210523684207901315710526317881579027631632131580052631584750000000000)) 0 (109649122806666776312502260728070629387749940828855263225879378004431179473693289509384737629736843605263 / 164473690789473421052618421039506578552631589407895138158160657900263157923750000000000000000000000)

theorem hdx2 : solveOnceScalar PC8 luD res1D dx1D = dx2D := by
  norm_num [solveOnceScalar, fwdRow, bwdRow, luD, res1D, dx1D, dx2D, upd, List.range',
    dataC8, PC8, bC8, List.foldl, max_def, abs]

def x2D : ℕ → ℚ :=
  upd
    (upd
      (upd
        (upd
          (upd
            (upd (upd (upd (upd (fun _ => 0) 0 0) 1 0) 2 0) 0
              (-(4385964912274122807017543938596487149122543947365789473605263 /
                  6578947499999993421052499999736842102500000000000000000)))
            1 (-(99999999999700099997000001799999820000 / 150000002999999849999996999993999999937)))
          2 (249999999999624999774999999994999992500004500009 / 375000007499999624999992499984999999842500))
        0
        (-(2193168640350872741405701241180228504346517587577692989877104138486842406938169209897407894894737 /
            164473690789473421052618421039506578552631589407895138158160657900263157923750000000000000000000000)))
      1
      (-(2500024749992497425714749317440396159955074945295644972160000009000009 /
          187500007499999699999984999985037499550000011925000457500303150006300000033075)))
    2
    (125010612494374746035124979744773449998207880079713750747804526008785847749990999991 /
      9375000374999984999999249999251874977500000596250022875015157500315000001653750000000)

def berr2D : ℚ :=
  124999999999600124996252577230000517502034930044895000085499991 /
    249999999999625000000000004499999767499985004999849999995499991000000000000000

theorem hib2 : iterBackErr PC8 dataC8 bC8 res1D dx2D x1D = (berr2D, x2D) := by
  norm_num [iterBackErr, res1D, dx2D, dx1D, x1D, x2D, berr2D, upd, List.range', dataC8,
    PC8, bC8, capBackError, List.foldl, max_def, abs]

theorem hstep1 : refineGo PC8 luD dataC8 bC8 7 x0D bC8 x0D dblMaxQ
    = refineGo PC8 luD dataC8 bC8 6 x1D res1D dx1D 1 := by
  rw [show (7 : ℕ) = 6 + 1 from rfl, refineGo]
  rw [if_neg (by norm_num [dblMaxQ, epsPerturbation]), if_neg (by norm_num : ¬((6:ℕ) = 0))]
  simp only [hdx1, hib1, hres1]

theorem hstep2 : refineGo PC8 luD dataC8 bC8 6 x1D res1D dx1D 1
    = refineGo PC8 luD dataC8 bC8 5 x2D (calcResidual PC8 dataC8 bC8 x2D res1D) dx2D berr2D := by
  rw [show (6 : ℕ) = 5 + 1 from rfl, refineGo]
  rw [if_neg (by norm_num [epsPerturbation]), if_neg (by norm_num : ¬((5:ℕ) = 0))]
  simp only [hdx2, hib2]

theorem hstep3 (res : ℕ → ℚ) : refineGo PC8 luD dataC8 bC8 5 x2D res dx2D berr2D
    = Except.ok x2D := by
  rw [show (5 : ℕ) = 4 + 1 from rfl, refineGo]
  rw [if_pos (by norm_num [berr2D, epsPerturbation])]

theorem hsolve : solveWithRefinement PC8 luD dataC8 bC8 (fun _ => 0) = Except.ok x2D := by
  have hx0 : (List.range' 0 PC8.size).foldl (fun xc row => upd xc row 0) (fun _ => 0) = x0D := rfl
  show refineGo PC8 luD dataC8 bC8 (maxIterativeRefinement + 2)
    ((List.range' 0 PC8.size).foldl (fun xc row => upd xc row 0) (fun _ => 0)) bC8
    ((List.range' 0 PC8.size).foldl (fun xc row => upd xc row 0) (fun _ => 0)) dblMaxQ = Except.ok x2D
  rw [hx0, show maxIterativeRefinement + 2 = 7 from rfl, hstep1, hstep2, hstep3]

def colposD : ℕ → ℕ :=
  upd (upd (upd (upd (upd (upd (fun r => 3 * r) 1 4) 2 7) 0 1) 2 8) 1 5) 2 9

def pivotsD : List ℚ :=
  [5000000000000, 4999999999999999 / 50000000000000000000000000000,
    -(50000000999999949999998999997999999979 / 50000000000000000000001000000000000000)]

def nrmD : ℚ := 50000000000000000000001 / 10000000000

theorem hfact : prefactorizeScalar PC8 dataC8 true
    = Except.ok (⟨luD, colposD, true, pivotsD⟩, nrmD) := by
  norm_num [prefactorizeScalar, factStep, elimRowStep, schurStep, lowerBound,
    lowerBoundAux, perturb_pivot_if_needed, matrixNormOff, is_normal, upd,
    List.range', dataC8, PC8, epsPerturbation, List.foldlM, Except.map,
    Bind.bind, Except.bind, pure, Except.pure, max_def, abs, luD, colposD,
    pivotsD, nrmD]

def stC8 : FactState :=
  ((prefactorizeScalar PC8 dataC8 true).toOption.getD
    (⟨fun _ => 0, fun _ => 0, false, []⟩, 0)).1

def xC8 : ℕ → ℚ :=
  (solveWithRefinement PC8 stC8.lu dataC8 bC8 (fun _ => 0)).toOption.getD (fun _ => 0)

def infNormL (n : ℕ) (v : ℕ → ℚ) : ℚ := ((List.range n).map (fun r => |v r|)).foldl max 0

def matInfNormL (P : SPattern) (orig : ℕ → ℚ) : ℚ :=
  ((List.range P.size).map (fun r =>
    ((List.range' (P.indptr r) (P.indptr (r + 1) - P.indptr r)).map
      (fun k => |orig k|)).foldl (fun a z => a + z) 0)).foldl max 0

def residC8 (r : ℕ) : ℚ :=
  bC8 r - ((List.range' (PC8.indptr r) (PC8.indptr (r + 1) - PC8.indptr r)).map
    (fun k => dataC8 k * xC8 (PC8.cols k))).foldl (fun a z => a + z) 0

theorem hstC8 : stC8 = ⟨luD, colposD, true, pivotsD⟩ := by
  rw [stC8, hfact]
  rfl

theorem hxC8 : xC8 = x2D := by
  rw [xC8, hstC8]
  rw [show (⟨luD, colposD, true, pivotsD⟩ : FactState).lu = luD from rfl]
  rw [hsolve]
  rfl

/-- C8 counterexample: a concrete 3-bus (scalar) system on which the
perturbed-mode solve returns normally while the returned solution violates
the claimed residual bound
`‖A·x − b‖_∞ ≤ 1e-13 · (‖b‖_∞ + ‖A‖_∞·‖x‖_∞)`. -/
theorem C8_residual_bound_counterexample :
    (prefactorizeScalar PC8 dataC8 true).isOk = true
    ∧ stC8.flag = true
    ∧ (solveWithRefinement PC8 stC8.lu dataC8 bC8 (fun _ => 0)).isOk = true
    ∧ epsPerturbation * (infNormL 3 bC8 + matInfNormL PC8 dataC8 * infNormL 3 xC8)
        < infNormL 3 residC8 := by
  refine ⟨by rw [hfact]; rfl, by rw [hstC8], ?_, ?_⟩
  · rw [hstC8, show (⟨luD, colposD, true, pivotsD⟩ : FactState).lu = luD from rfl, hsolve]
    rfl
  · have hres : residC8 = fun r =>
        bC8 r - ((List.range' (PC8.indptr r) (PC8.indptr (r + 1) - PC8.indptr r)).map
          (fun k => dataC8 k * x2D (PC8.cols k))).foldl (fun a z => a + z) 0 := by
      funext r
      rw [residC8, hxC8]
    rw [hres, hxC8]
    norm_num [infNormL, matInfNormL, x2D, upd, List.range', List.range, dataC8, PC8,
      bC8, epsPerturbation, List.foldl, max_def, abs]

/-!
### Characterizations of the refinement building blocks

Specification-side formulas for the residual, the backward-error
denominators and the infinity norms, and lemmas relating the loop
implementations to them.
-/

/-- `r_r = b_r - Σ_c A[r,c]·x_c` over the preserved original matrix. -/
def residSpec (P : SPattern) (orig b xv : ℕ → ℚ) (r : ℕ) : ℚ :=
  b r - ∑ k ∈ Finset.Ico (P.indptr r) (P.indptr (r + 1)), orig k * xv (P.cols k)

/-- `denom_r = |b_r| + Σ_c |A[r,c]|·|x_c|`. -/
def denomSpec (P : SPattern) (orig b xv : ℕ → ℚ) (r : ℕ) : ℚ :=
  |b r| + ∑ k ∈ Finset.Ico (P.indptr r) (P.indptr (r + 1)), |orig k| * |xv (P.cols k)|

/-- `max_r denom_r`, the quantity `max_denominator` of the C++ loop. -/
def maxDenom (P : SPattern) (orig b xv : ℕ → ℚ) : ℚ :=
  (List.range' 0 P.size).foldl (fun a row => max a (denomSpec P orig b xv row)) 0

/-- `Σ_c |A[r,c]|` over row `r` (the diagonal included). -/
def rowAbsSum (P : SPattern) (orig : ℕ → ℚ) (r : ℕ) : ℚ :=
  ∑ k ∈ Finset.Ico (P.indptr r) (P.indptr (r + 1)), |orig k|

/-- `‖A‖_∞ = max_r Σ_c |A[r,c]|`. -/
def matNormS (P : SPattern) (orig : ℕ → ℚ) : ℚ :=
  (List.range' 0 P.size).foldl (fun a r => max a (rowAbsSum P orig r)) 0

/-- `‖v‖_∞ = max_r |v_r|` over the first `n` entries. -/
def vecNormS (n : ℕ) (v : ℕ → ℚ) : ℚ :=
  (List.range' 0 n).foldl (fun a r => max a |v r|) 0

theorem fold_add_sum (g : ℕ → ℚ) :
    ∀ (len lo : ℕ) (init : ℚ),
      (List.range' lo len).foldl (fun a i => a + g i) init =
        init + ∑ k ∈ Finset.Ico lo (lo + len), g k := by
  intro len
  induction len with
  | zero =>
    intro lo init
    rw [show List.range' lo 0 = [] from rfl, List.foldl_nil]
    simp
  | succ m ih =>
    intro lo init
    have hcons : List.range' lo (m + 1) = lo :: List.range' (lo + 1) m := by
      simpa using List.range'_succ lo m 1
    rw [hcons, List.foldl_cons, ih]
    have hsplit := Finset.sum_eq_sum_Ico_succ_bot (a := lo) (b := lo + (m + 1))
      (f := g) (by omega)
    have harith : lo + 1 + m = lo + (m + 1) := by omega
    rw [harith, hsplit]
    ring

theorem fold_sub_sum (g : ℕ → ℚ) :
    ∀ (len lo : ℕ) (init : ℚ),
      (List.range' lo len).foldl (fun a i => a - g i) init =
        init - ∑ k ∈ Finset.Ico lo (lo + len), g k := by
  intro len
  induction len with
  | zero =>
    intro lo init
    rw [show List.range' lo 0 = [] from rfl, List.foldl_nil]
    simp
  | succ m ih =>
    intro lo init
    have hcons : List.range' lo (m + 1) = lo :: List.range' (lo + 1) m := by
      simpa using List.range'_succ lo m 1
    rw [hcons, List.foldl_cons, ih]
    have hsplit := Finset.sum_eq_sum_Ico_succ_bot (a := lo) (b := lo + (m + 1))
      (f := g) (by omega)
    have harith : lo + 1 + m = lo + (m + 1) := by omega
    rw [harith, hsplit]
    ring

/-- The residual row loop body equals the closed-form row residual. -/
theorem residRow_eq (P : SPattern) (orig b xv : ℕ → ℚ) (row : ℕ) :
    (List.range' (P.indptr row) (P.indptr (row + 1) - P.indptr row)).foldl
      (fun acc idx => acc - orig idx * xv (P.cols idx)) (b row) =
      residSpec P orig b xv row := by
  rw [fold_sub_sum (fun idx => orig idx * xv (P.cols idx)), residSpec]
  by_cases hle : P.indptr row ≤ P.indptr (row + 1)
  · rw [Nat.add_sub_cancel' hle]
  · have h1 : Finset.Ico (P.indptr row)
        (P.indptr row + (P.indptr (row + 1) - P.indptr row)) = ∅ := by
      rw [Finset.Ico_eq_empty_iff]; omega
    have h2 : Finset.Ico (P.indptr row) (P.indptr (row + 1)) = ∅ := by
      rw [Finset.Ico_eq_empty_iff]; omega
    rw [h1, h2]

/-- The denominator row loop body equals the closed-form row denominator. -/
theorem denomRow_eq (P : SPattern) (orig b xv : ℕ → ℚ) (row : ℕ) :
    (List.range' (P.indptr row) (P.indptr (row + 1) - P.indptr row)).foldl
      (fun a idx => a + |orig idx| * |xv (P.cols idx)|) |b row| =
      denomSpec P orig b xv row := by
  rw [fold_add_sum (fun idx => |orig idx| * |xv (P.cols idx)|), denomSpec]
  by_cases hle : P.indptr row ≤ P.indptr (row + 1)
  · rw [Nat.add_sub_cancel' hle]
  · have h1 : Finset.Ico (P.indptr row)
        (P.indptr row + (P.indptr (row + 1) - P.indptr row)) = ∅ := by
      rw [Finset.Ico_eq_empty_iff]; omega
    have h2 : Finset.Ico (P.indptr row) (P.indptr (row + 1)) = ∅ := by
      rw [Finset.Ico_eq_empty_iff]; omega
    rw [h1, h2]

theorem foldl_upd_acc (val : ℕ → ℚ) :
    ∀ (m : ℕ) (init : ℕ → ℚ) (j : ℕ),
      ((List.range' 0 m).foldl (fun d row => upd d row (val row)) init) j =
        if j < m then val j else init j := by
  intro m
  induction m with
  | zero =>
    intro init j
    rw [show List.range' 0 0 = [] from rfl, List.foldl_nil, if_neg (by omega)]
  | succ m ih =>
    intro init j
    rw [List.range'_1_concat, Nat.zero_add, List.foldl_append, List.foldl_cons,
      List.foldl_nil]
    by_cases hj : j = m
    · subst hj
      rw [upd_same, if_pos (by omega)]
    · rw [upd_other _ _ _ _ hj, ih]
      by_cases hj2 : j < m
      · rw [if_pos hj2, if_pos (by omega)]
      · rw [if_neg hj2, if_neg (by omega)]

/-- The residual recomputation writes the closed-form residual into each row. -/
theorem calcResidual_spec (P : SPattern) (orig b xv res : ℕ → ℚ) :
    ∀ r, r < P.size → calcResidual P orig b xv res r = residSpec P orig b xv r := by
  intro r hr
  rw [calcResidual]
  have hfold : (List.range' 0 P.size).foldl (fun d row =>
      upd d row ((List.range' (P.indptr row) (P.indptr (row + 1) - P.indptr row)).foldl
        (fun acc idx => acc - orig idx * xv (P.cols idx)) (b row))) res =
      (List.range' 0 P.size).foldl (fun d row =>
        upd d row (residSpec P orig b xv row)) res := by
    apply List.foldl_ext
    intro d row _
    rw [residRow_eq]
  rw [hfold, foldl_upd_acc (residSpec P orig b xv) P.size res r, if_pos hr]

theorem iterBackErr_snd_aux (res dx : ℕ → ℚ) (dmf : ℕ → ℚ) (minden : ℚ) :
    ∀ (m : ℕ) (a : ℚ) (xv : ℕ → ℚ) (j : ℕ),
      (((List.range' 0 m).foldl (fun (acc : ℚ × (ℕ → ℚ)) row =>
        (max acc.1 (|res row| / max (dmf row) minden),
         upd acc.2 row (acc.2 row + dx row))) (a, xv)).2) j =
        if j < m then xv j + dx j else xv j := by
  intro m
  induction m with
  | zero =>
    intro a xv j
    rw [show List.range' 0 0 = [] from rfl, List.foldl_nil, if_neg (by omega)]
  | succ m ih =>
    intro a xv j
    rw [List.range'_1_concat, Nat.zero_add, List.foldl_append, List.foldl_cons,
      List.foldl_nil]
    by_cases hj : j = m
    · subst hj
      rw [show ∀ p : ℚ × (ℕ → ℚ), ∀ row,
          ((max p.1 (|res row| / max (dmf row) minden),
            upd p.2 row (p.2 row + dx row)) : ℚ × (ℕ → ℚ)).2 = upd p.2 row (p.2 row + dx row)
        from fun _ _ => rfl]
      rw [upd_same, ih, if_neg (by omega), if_pos (by omega)]
    · rw [show ∀ p : ℚ × (ℕ → ℚ), ∀ row,
          ((max p.1 (|res row| / max (dmf row) minden),
            upd p.2 row (p.2 row + dx row)) : ℚ × (ℕ → ℚ)).2 = upd p.2 row (p.2 row + dx row)
        from fun _ _ => rfl]
      rw [upd_other _ _ _ _ hj, ih]
      by_cases hj2 : j < m
      · rw [if_pos hj2, if_pos (by omega)]
      · rw [if_neg hj2, if_neg (by omega)]

theorem iterBackErr_fst_aux (res dx : ℕ → ℚ) (dmf : ℕ → ℚ) (minden : ℚ) :
    ∀ (m : ℕ) (a : ℚ) (xv : ℕ → ℚ),
      (((List.range' 0 m).foldl (fun (acc : ℚ × (ℕ → ℚ)) row =>
        (max acc.1 (|res row| / max (dmf row) minden),
         upd acc.2 row (acc.2 row + dx row))) (a, xv)).1) =
        (List.range' 0 m).foldl (fun a row => max a (|res row| / max (dmf row) minden)) a := by
  intro m
  induction m with
  | zero => intro a xv; rfl
  | succ m ih =>
    intro a xv
    rw [List.range'_1_concat, Nat.zero_add, List.foldl_append, List.foldl_cons,
      List.foldl_nil, List.foldl_append, List.foldl_cons, List.foldl_nil, ih]

theorem denomFold_fst_aux (D : ℕ → ℚ) :
    ∀ (m : ℕ) (d0 : ℕ → ℚ) (a : ℚ) (j : ℕ),
      (((List.range' 0 m).foldl (fun (acc : (ℕ → ℚ) × ℚ) row =>
        (upd acc.1 row (D row), max acc.2 (D row))) (d0, a)).1) j =
        if j < m then D j else d0 j := by
  intro m
  induction m with
  | zero =>
    intro d0 a j
    rw [show List.range' 0 0 = [] from rfl, List.foldl_nil, if_neg (by omega)]
  | succ m ih =>
    intro d0 a j
    rw [List.range'_1_concat, Nat.zero_add, List.foldl_append, List.foldl_cons,
      List.foldl_nil]
    by_cases hj : j = m
    · subst hj
      rw [show ∀ p : (ℕ → ℚ) × ℚ, ∀ row,
          ((upd p.1 row (D row), max p.2 (D row)) : (ℕ → ℚ) × ℚ).1 = upd p.1 row (D row)
        from fun _ _ => rfl]
      rw [upd_same, if_pos (by omega)]
    · rw [show ∀ p : (ℕ → ℚ) × ℚ, ∀ row,
          ((upd p.1 row (D row), max p.2 (D row)) : (ℕ → ℚ) × ℚ).1 = upd p.1 row (D row)
        from fun _ _ => rfl]
      rw [upd_other _ _ _ _ hj, ih]
      by_cases hj2 : j < m
      · rw [if_pos hj2, if_pos (by omega)]
      · rw [if_neg hj2, if_neg (by omega)]

theorem denomFold_snd_aux (D : ℕ → ℚ) :
    ∀ (m : ℕ) (d0 : ℕ → ℚ) (a : ℚ),
      (((List.range' 0 m).foldl (fun (acc : (ℕ → ℚ) × ℚ) row =>
        (upd acc.1 row (D row), max acc.2 (D row))) (d0, a)).2) =
        (List.range' 0 m).foldl (fun a row => max a (D row)) a := by
  intro m
  induction m with
  | zero => intro d0 a; rfl
  | succ m ih =>
    intro d0 a
    rw [List.range'_1_concat, Nat.zero_add, List.foldl_append, List.foldl_cons,
      List.foldl_nil, List.foldl_append, List.foldl_cons, List.foldl_nil, ih]

/-- `iterate_and_backward_error` applies `x += dx` on the rows of the system. -/
theorem iterBackErr_x (P : SPattern) (orig b res dx xv : ℕ → ℚ) (j : ℕ) :
    (iterBackErr P orig b res dx xv).2 j = if j < P.size then xv j + dx j else xv j := by
  simp only [iterBackErr]
  exact iterBackErr_snd_aux res dx _ _ P.size 0 xv j

/-- The backward error computed by `iterate_and_backward_error` is the maximum
over rows of `|res_r| / max(denom_r, cap·max_denom)`. -/
theorem iterBackErr_berr (P : SPattern) (orig b res dx xv : ℕ → ℚ) :
    (iterBackErr P orig b res dx xv).1 =
      (List.range' 0 P.size).foldl (fun a row => max a
        (|res row| / max (denomSpec P orig b xv row)
          (capBackError * maxDenom P orig b xv))) 0 := by
  simp only [iterBackErr]
  rw [iterBackErr_fst_aux]
  have hd : ∀ row, (List.range' (P.indptr row) (P.indptr (row + 1) - P.indptr row)).foldl
      (fun a idx => a + |orig idx| * |xv (P.cols idx)|) |b row| =
      denomSpec P orig b xv row := fun row => denomRow_eq P orig b xv row
  have hfold : ((List.range' 0 P.size).foldl (fun (acc : (ℕ → ℚ) × ℚ) row =>
      (upd acc.1 row ((List.range' (P.indptr row) (P.indptr (row + 1) - P.indptr row)).foldl
        (fun a idx => a + |orig idx| * |xv (P.cols idx)|) |b row|),
       max acc.2 ((List.range' (P.indptr row) (P.indptr (row + 1) - P.indptr row)).foldl
        (fun a idx => a + |orig idx| * |xv (P.cols idx)|) |b row|))) ((fun _ => 0), 0)) =
      ((List.range' 0 P.size).foldl (fun (acc : (ℕ → ℚ) × ℚ) row =>
      (upd acc.1 row (denomSpec P orig b xv row),
       max acc.2 (denomSpec P orig b xv row))) ((fun _ => 0), 0)) := by
    apply List.foldl_ext
    intro acc row _
    rw [hd]
  rw [hfold]
  apply List.foldl_ext
  intro a row hrow
  have hrowlt : row < P.size := by
    have := List.mem_range'_1.mp hrow
    omega
  rw [denomFold_fst_aux, if_pos hrowlt, denomFold_snd_aux]
  rfl

/-!
### Norm and maximum-denominator bounds
-/

theorem vecNormS_ge (n : ℕ) (v : ℕ → ℚ) : ∀ i, i < n → |v i| ≤ vecNormS n v := by
  intro i hi
  exact (foldl_max_char (fun r => |v r|) n).1 i hi

theorem vecNormS_nonneg (n : ℕ) (v : ℕ → ℚ) : 0 ≤ vecNormS n v := by
  rcases (foldl_max_char (fun r => |v r|) n).2 with h | ⟨i, _, h⟩
  · exact le_of_eq h.symm
  · exact le_of_le_of_eq (abs_nonneg (v i)) h.symm

theorem rowAbsSum_nonneg (P : SPattern) (orig : ℕ → ℚ) (r : ℕ) :
    0 ≤ rowAbsSum P orig r :=
  Finset.sum_nonneg fun k _ => abs_nonneg (orig k)

theorem matNormS_ge (P : SPattern) (orig : ℕ → ℚ) :
    ∀ r, r < P.size → rowAbsSum P orig r ≤ matNormS P orig := by
  intro r hr
  exact (foldl_max_char (fun i => rowAbsSum P orig i) P.size).1 r hr

theorem matNormS_nonneg (P : SPattern) (orig : ℕ → ℚ) : 0 ≤ matNormS P orig := by
  rcases (foldl_max_char (fun i => rowAbsSum P orig i) P.size).2 with h | ⟨i, _, h⟩
  · exact le_of_eq h.symm
  · exact le_of_le_of_eq (rowAbsSum_nonneg P orig i) h.symm

theorem denomSpec_nonneg (P : SPattern) (orig b xv : ℕ → ℚ) (r : ℕ) :
    0 ≤ denomSpec P orig b xv r :=
  add_nonneg (abs_nonneg (b r))
    (Finset.sum_nonneg fun k _ => mul_nonneg (abs_nonneg (orig k)) (abs_nonneg (xv (P.cols k))))

theorem maxDenom_ge (P : SPattern) (orig b xv : ℕ → ℚ) :
    ∀ r, r < P.size → denomSpec P orig b xv r ≤ maxDenom P orig b xv := by
  intro r hr
  exact (foldl_max_char (fun i => denomSpec P orig b xv i) P.size).1 r hr

theorem maxDenom_nonneg (P : SPattern) (orig b xv : ℕ → ℚ) :
    0 ≤ maxDenom P orig b xv := by
  rcases (foldl_max_char (fun i => denomSpec P orig b xv i) P.size).2 with h | ⟨i, _, h⟩
  · exact le_of_eq h.symm
  · exact le_of_le_of_eq (denomSpec_nonneg P orig b xv i) h.symm

/-- Each row denominator is dominated by `‖b‖ + ‖A‖·‖x‖` when every column
index of the row lies inside the system. -/
theorem denomSpec_le_norms (P : SPattern) (orig b xv : ℕ → ℚ) (r : ℕ) (hr : r < P.size)
    (hcols : ∀ k, P.indptr r ≤ k → k < P.indptr (r + 1) → P.cols k < P.size) :
    denomSpec P orig b xv r ≤
      vecNormS P.size b + matNormS P orig * vecNormS P.size xv := by
  rw [denomSpec]
  have h1 : |b r| ≤ vecNormS P.size b := vecNormS_ge P.size b r hr
  have h2 : ∑ k ∈ Finset.Ico (P.indptr r) (P.indptr (r + 1)), |orig k| * |xv (P.cols k)| ≤
      rowAbsSum P orig r * vecNormS P.size xv := by
    rw [rowAbsSum, Finset.sum_mul]
    apply Finset.sum_le_sum
    intro k hk
    have hkc : P.cols k < P.size :=
      hcols k (Finset.mem_Ico.mp hk).1 (Finset.mem_Ico.mp hk).2
    exact mul_le_mul_of_nonneg_left (vecNormS_ge P.size xv (P.cols k) hkc)
      (abs_nonneg (orig k))
  have h3 : rowAbsSum P orig r * vecNormS P.size xv ≤
      matNormS P orig * vecNormS P.size xv :=
    mul_le_mul_of_nonneg_right (matNormS_ge P orig r hr) (vecNormS_nonneg P.size xv)
  linarith

theorem maxDenom_le_norms (P : SPattern) (orig b xv : ℕ → ℚ)
    (hcols : ∀ r, r < P.size → ∀ k, P.indptr r ≤ k → k < P.indptr (r + 1) →
      P.cols k < P.size) :
    maxDenom P orig b xv ≤ vecNormS P.size b + matNormS P orig * vecNormS P.size xv := by
  have hM : 0 ≤ vecNormS P.size b + matNormS P orig * vecNormS P.size xv :=
    add_nonneg (vecNormS_nonneg P.size b)
      (mul_nonneg (matNormS_nonneg P orig) (vecNormS_nonneg P.size xv))
  rcases (foldl_max_char (fun i => denomSpec P orig b xv i) P.size).2 with h | ⟨i, hi, h⟩
  · exact le_trans (le_of_eq h) hM
  · exact le_trans (le_of_eq h) (denomSpec_le_norms P orig b xv i hi (hcols i hi))

theorem iterBackErr_berr_ge (P : SPattern) (orig b res dx xv : ℕ → ℚ) :
    ∀ r, r < P.size →
      |res r| / max (denomSpec P orig b xv r) (capBackError * maxDenom P orig b xv) ≤
        (iterBackErr P orig b res dx xv).1 := by
  intro r hr
  rw [iterBackErr_berr]
  exact (foldl_max_char (fun row => |res row| /
    max (denomSpec P orig b xv row) (capBackError * maxDenom P orig b xv)) P.size).1 r hr

/-- If the backward error of an iterate is at most `ε`, the residual of that
iterate satisfies the componentwise bound `|r_i| ≤ ε·(‖b‖ + ‖A‖·‖x‖)`. -/
theorem backErr_residual_bound (P : SPattern) (orig b res dx xv : ℕ → ℚ)
    (hres : ∀ r, r < P.size → res r = residSpec P orig b xv r)
    (hcols : ∀ r, r < P.size → ∀ k, P.indptr r ≤ k → k < P.indptr (r + 1) →
      P.cols k < P.size)
    (hberr : (iterBackErr P orig b res dx xv).1 ≤ epsPerturbation) :
    ∀ r, r < P.size →
      |residSpec P orig b xv r| ≤
        epsPerturbation * (vecNormS P.size b + matNormS P orig * vecNormS P.size xv) := by
  intro r hr
  have hM : 0 ≤ vecNormS P.size b + matNormS P orig * vecNormS P.size xv :=
    add_nonneg (vecNormS_nonneg P.size b)
      (mul_nonneg (matNormS_nonneg P orig) (vecNormS_nonneg P.size xv))
  have heps : (0 : ℚ) ≤ epsPerturbation := by norm_num [epsPerturbation]
  by_cases hd : denomSpec P orig b xv r = 0
  · have hbr : |b r| = 0 ∧
        ∑ k ∈ Finset.Ico (P.indptr r) (P.indptr (r + 1)), |orig k| * |xv (P.cols k)| = 0 := by
      have hs : 0 ≤ ∑ k ∈ Finset.Ico (P.indptr r) (P.indptr (r + 1)),
          |orig k| * |xv (P.cols k)| :=
        Finset.sum_nonneg fun k _ =>
          mul_nonneg (abs_nonneg (orig k)) (abs_nonneg (xv (P.cols k)))
      have hb0 : 0 ≤ |b r| := abs_nonneg (b r)
      rw [denomSpec] at hd
      constructor <;> linarith
    have hterm : ∀ k ∈ Finset.Ico (P.indptr r) (P.indptr (r + 1)),
        orig k * xv (P.cols k) = 0 := by
      intro k hk
      have h0 : |orig k| * |xv (P.cols k)| = 0 :=
        (Finset.sum_eq_zero_iff_of_nonneg fun k _ =>
          mul_nonneg (abs_nonneg (orig k)) (abs_nonneg (xv (P.cols k)))).mp hbr.2 k hk
      have : |orig k * xv (P.cols k)| = 0 := by rw [abs_mul]; exact h0
      exact abs_eq_zero.mp this
    have hr0 : residSpec P orig b xv r = 0 := by
      rw [residSpec, Finset.sum_eq_zero hterm, abs_eq_zero.mp hbr.1, sub_zero]
    rw [hr0, abs_zero]
    exact mul_nonneg heps hM
  · have hdpos : 0 < denomSpec P orig b xv r :=
      lt_of_le_of_ne (denomSpec_nonneg P orig b xv r) (Ne.symm hd)
    set D := max (denomSpec P orig b xv r) (capBackError * maxDenom P orig b xv) with hD
    have hDpos : 0 < D := lt_of_lt_of_le hdpos (le_max_left _ _)
    have hdiv : |res r| / D ≤ epsPerturbation :=
      le_trans (iterBackErr_berr_ge P orig b res dx xv r hr) hberr
    have habs : |res r| ≤ epsPerturbation * D := by
      rw [div_le_iff₀ hDpos] at hdiv
      linarith
    have hDle : D ≤ maxDenom P orig b xv := by
      apply max_le (maxDenom_ge P orig b xv r hr)
      have h1 : capBackError ≤ 1 := by norm_num [capBackError]
      exact mul_le_of_le_one_left (maxDenom_nonneg P orig b xv) h1
    have hmd : maxDenom P orig b xv ≤
        vecNormS P.size b + matNormS P orig * vecNormS P.size xv :=
      maxDenom_le_norms P orig b xv hcols
    have hfin : |res r| ≤ epsPerturbation *
        (vecNormS P.size b + matNormS P orig * vecNormS P.size xv) :=
      le_trans habs (mul_le_mul_of_nonneg_left (le_trans hDle hmd) heps)
    rw [hres r hr] at hfin
    exact hfin

/-- Any normal return of the refinement loop comes from an iterate whose
measured backward error was at most the threshold; the returned vector is
that iterate plus one further correction. -/
theorem refineGo_ok_cases (P : SPattern) (lu orig b : ℕ → ℚ) :
    ∀ (fuel : ℕ) (x res dx : ℕ → ℚ) (berr : ℚ) (y : ℕ → ℚ),
      (∀ r, r < P.size → res r = residSpec P orig b x r) →
      refineGo P lu orig b fuel x res dx berr = Except.ok y →
      (berr ≤ epsPerturbation ∧ y = x) ∨
      (∃ xm resm dxm, (∀ r, r < P.size → resm r = residSpec P orig b xm r) ∧
        (iterBackErr P orig b resm dxm xm).1 ≤ epsPerturbation ∧
        y = (iterBackErr P orig b resm dxm xm).2) := by
  intro fuel
  induction fuel with
  | zero =>
    intro x res dx berr y _ h
    rw [refineGo] at h
    exact Except.noConfusion h
  | succ f ih =>
    intro x res dx berr y hres h
    rw [refineGo] at h
    by_cases hb : berr ≤ epsPerturbation
    · rw [if_pos hb] at h
      exact Or.inl ⟨hb, (Except.ok.inj h).symm⟩
    · rw [if_neg hb] at h
      by_cases hf : f = 0
      · rw [if_pos hf] at h
        exact Except.noConfusion h
      · rw [if_neg hf] at h
        have hres1 : ∀ r, r < P.size →
            calcResidual P orig b
              (iterBackErr P orig b res (solveOnceScalar P lu res dx) x).2 res r =
            residSpec P orig b
              (iterBackErr P orig b res (solveOnceScalar P lu res dx) x).2 r :=
          fun r hr => calcResidual_spec P orig b
            (iterBackErr P orig b res (solveOnceScalar P lu res dx) x).2 res r hr
        rcases ih (iterBackErr P orig b res (solveOnceScalar P lu res dx) x).2
            (calcResidual P orig b
              (iterBackErr P orig b res (solveOnceScalar P lu res dx) x).2 res)
            (solveOnceScalar P lu res dx)
            (iterBackErr P orig b res (solveOnceScalar P lu res dx) x).1
            y hres1 h with hleft | hgood
        · exact Or.inr ⟨x, res, solveOnceScalar P lu res dx, hres, hleft.1, hleft.2⟩
        · exact Or.inr hgood

/-- C8 (amended): when the scalar iterative-refinement solve returns normally,
the iterate on which the accepted backward error was measured satisfies the
residual bound `|b − A·x_meas|_r ≤ 1e-13 · (‖b‖_∞ + ‖A‖_∞·‖x_meas‖_∞)` on
every row; the returned vector is that iterate plus one further correction,
applied after the error was measured. -/
theorem C8_residual_bound_measured (P : SPattern) (lu orig b x0 y : ℕ → ℚ)
    (hcols : ∀ r, r < P.size → ∀ k, P.indptr r ≤ k → k < P.indptr (r + 1) →
      P.cols k < P.size)
    (hok : solveWithRefinement P lu orig b x0 = Except.ok y) :
    ∃ xm dxm : ℕ → ℚ,
      (∀ r, r < P.size → y r = xm r + dxm r) ∧
      ∀ r, r < P.size →
        |residSpec P orig b xm r| ≤
          epsPerturbation *
            (vecNormS P.size b + matNormS P orig * vecNormS P.size xm) := by
  rw [solveWithRefinement] at hok
  have hres0 : ∀ r, r < P.size →
      b r = residSpec P orig b
        ((List.range' 0 P.size).foldl (fun xc row => upd xc row 0) x0) r := by
    intro r hr
    rw [residSpec]
    have hsum : ∑ k ∈ Finset.Ico (P.indptr r) (P.indptr (r + 1)),
        orig k * ((List.range' 0 P.size).foldl (fun xc row => upd xc row 0) x0)
          (P.cols k) = 0 := by
      apply Finset.sum_eq_zero
      intro k hk
      have hkc : P.cols k < P.size :=
        hcols r hr k (Finset.mem_Ico.mp hk).1 (Finset.mem_Ico.mp hk).2
      have hx : ((List.range' 0 P.size).foldl (fun xc row => upd xc row 0) x0)
          (P.cols k) = 0 := by
        have := foldl_upd_acc (fun _ => 0) P.size x0 (P.cols k)
        rw [if_pos hkc] at this
        exact this
      rw [hx, mul_zero]
    rw [hsum, sub_zero]
  rcases refineGo_ok_cases P lu orig b (maxIterativeRefinement + 2)
      ((List.range' 0 P.size).foldl (fun xc row => upd xc row 0) x0)
      b ((List.range' 0 P.size).foldl (fun xc row => upd xc row 0) x0)
      dblMaxQ y hres0 hok with hleft | ⟨xm, resm, dxm, hresm, hberr, hy⟩
  · exact absurd hleft.1 (by norm_num [dblMaxQ, epsPerturbation])
  · refine ⟨xm, dxm, ?_, ?_⟩
    · intro r hr
      rw [hy, iterBackErr_x, if_pos hr]
    · exact backErr_residual_bound P orig b resm dxm xm hresm hcols hberr

/-!
### A concrete instance for the measured-iterate bound

A one-bus system `2·x = 2` solved in two refinement passes.
-/

def PW8 : SPattern := ⟨1, fun r => r, fun _ => 0, fun r => r⟩

def aW8 : ℕ → ℚ := fun _ => 2

def bW8 : ℕ → ℚ := fun _ => 2

def zW8 : ℕ → ℚ := fun _ => 0

def x0W : ℕ → ℚ := upd (fun _ => 0) 0 0

def dx1W : ℕ → ℚ := upd (upd x0W 0 2) 0 1

def x1W : ℕ → ℚ := upd x0W 0 1

def res1W : ℕ → ℚ := upd bW8 0 0

def dx2W : ℕ → ℚ := upd (upd dx1W 0 0) 0 0

def x2W : ℕ → ℚ := upd x1W 0 1

theorem hdx1W : solveOnceScalar PW8 aW8 bW8 x0W = dx1W := by
  norm_num [solveOnceScalar, fwdRow, bwdRow, PW8, aW8, bW8, x0W, dx1W, upd,
    List.range', List.foldl, max_def, abs]

theorem hib1W : iterBackErr PW8 aW8 bW8 bW8 dx1W x0W = (1, x1W) := by
  norm_num [iterBackErr, PW8, aW8, bW8, x0W, dx1W, x1W, capBackError, upd,
    List.range', List.foldl, max_def, abs]

theorem hres1W : calcResidual PW8 aW8 bW8 x1W bW8 = res1W := by
  norm_num [calcResidual, PW8, aW8, bW8, x1W, res1W, upd, List.range',
    List.foldl, max_def, abs]

theorem hdx2W : solveOnceScalar PW8 aW8 res1W dx1W = dx2W := by
  norm_num [solveOnceScalar, fwdRow, bwdRow, PW8, aW8, res1W, dx1W, dx2W, upd,
    List.range', List.foldl, max_def, abs]

theorem hib2W : iterBackErr PW8 aW8 bW8 res1W dx2W x1W = (0, x2W) := by
  norm_num [iterBackErr, PW8, aW8, bW8, res1W, dx2W, x1W, x2W, capBackError, upd,
    List.range', List.foldl, max_def, abs]

theorem hstep1W : refineGo PW8 aW8 aW8 bW8 7 x0W bW8 x0W dblMaxQ
    = refineGo PW8 aW8 aW8 bW8 6 x1W res1W dx1W 1 := by
  rw [show (7 : ℕ) = 6 + 1 from rfl, refineGo]
  rw [if_neg (by norm_num [dblMaxQ, epsPerturbation]), if_neg (by norm_num : ¬((6:ℕ) = 0))]
  simp only [hdx1W, hib1W, hres1W]

theorem hstep2W : refineGo PW8 aW8 aW8 bW8 6 x1W res1W dx1W 1
    = refineGo PW8 aW8 aW8 bW8 5 x2W (calcResidual PW8 aW8 bW8 x2W res1W) dx2W 0 := by
  rw [show (6 : ℕ) = 5 + 1 from rfl, refineGo]
  rw [if_neg (by norm_num [epsPerturbation]), if_neg (by norm_num : ¬((5:ℕ) = 0))]
  simp only [hdx2W, hib2W]

theorem hstep3W (res : ℕ → ℚ) : refineGo PW8 aW8 aW8 bW8 5 x2W res dx2W 0
    = Except.ok x2W := by
  rw [show (5 : ℕ) = 4 + 1 from rfl, refineGo]
  rw [if_pos (by norm_num [epsPerturbation])]

theorem hsolveW : solveWithRefinement PW8 aW8 aW8 bW8 zW8 = Except.ok x2W := by
  have hx0 : (List.range' 0 PW8.size).foldl (fun xc row => upd xc row 0) zW8 = x0W := rfl
  show refineGo PW8 aW8 aW8 bW8 (maxIterativeRefinement + 2)
    ((List.range' 0 PW8.size).foldl (fun xc row => upd xc row 0) zW8) bW8
    ((List.range' 0 PW8.size).foldl (fun xc row => upd xc row 0) zW8) dblMaxQ = Except.ok x2W
  rw [hx0, show maxIterativeRefinement + 2 = 7 from rfl, hstep1W, hstep2W, hstep3W]

theorem C8_residual_bound_measured_witness :
    ∃ xm dxm : ℕ → ℚ,
      (∀ r, r < PW8.size → x2W r = xm r + dxm r) ∧
      ∀ r, r < PW8.size →
        |residSpec PW8 aW8 bW8 xm r| ≤
          epsPerturbation *
            (vecNormS PW8.size bW8 + matNormS PW8 aW8 * vecNormS PW8.size xm) :=
  C8_residual_bound_measured PW8 aW8 aW8 bW8 zW8 x2W
    (fun _ _ _ _ _ => Nat.one_pos) hsolveW

/-!
### Claim C3: the iterative-refinement loop

`refineSeq k` is the machine state after `k` solve passes: the iterate, its
residual, the last correction and the backward error measured at pass `k`
(`DBL_MAX` as the sentinel before the first pass).
-/

def berrSpec (P : SPattern) (orig b res xv : ℕ → ℚ) : ℚ :=
  (List.range' 0 P.size).foldl (fun a row => max a
    (|res row| / max (denomSpec P orig b xv row)
      (capBackError * maxDenom P orig b xv))) 0

theorem iterBackErr_berrSpec (P : SPattern) (orig b res dx xv : ℕ → ℚ) :
    (iterBackErr P orig b res dx xv).1 = berrSpec P orig b res xv :=
  iterBackErr_berr P orig b res dx xv

def refineSeq (P : SPattern) (lu orig b x0 : ℕ → ℚ) :
    ℕ → (ℕ → ℚ) × (ℕ → ℚ) × (ℕ → ℚ) × ℚ
  | 0 => ((List.range' 0 P.size).foldl (fun xc row => upd xc row 0) x0, b,
      (List.range' 0 P.size).foldl (fun xc row => upd xc row 0) x0, dblMaxQ)
  | k + 1 =>
    let s := refineSeq P lu orig b x0 k
    let dx1 := solveOnceScalar P lu s.2.1 s.2.2.1
    let bx := iterBackErr P orig b s.2.1 dx1 s.1
    (bx.2, calcResidual P orig b bx.2 s.2.1, dx1, bx.1)

theorem refineGo_step (P : SPattern) (lu orig b x0 : ℕ → ℚ) (f k : ℕ) (hf : f ≠ 0)
    (hb : ¬ (refineSeq P lu orig b x0 k).2.2.2 ≤ epsPerturbation) :
    refineGo P lu orig b (f + 1) (refineSeq P lu orig b x0 k).1
      (refineSeq P lu orig b x0 k).2.1 (refineSeq P lu orig b x0 k).2.2.1
      (refineSeq P lu orig b x0 k).2.2.2 =
    refineGo P lu orig b f (refineSeq P lu orig b x0 (k + 1)).1
      (refineSeq P lu orig b x0 (k + 1)).2.1 (refineSeq P lu orig b x0 (k + 1)).2.2.1
      (refineSeq P lu orig b x0 (k + 1)).2.2.2 := by
  rw [refineGo, if_neg hb, if_neg hf]
  rfl

theorem refineSeq_zero_berr (P : SPattern) (lu orig b x0 : ℕ → ℚ) :
    ¬ (refineSeq P lu orig b x0 0).2.2.2 ≤ epsPerturbation := by
  have h : (refineSeq P lu orig b x0 0).2.2.2 = dblMaxQ := rfl
  rw [h]
  norm_num [dblMaxQ, epsPerturbation]

theorem refineGo_seq_error (P : SPattern) (lu orig b x0 : ℕ → ℚ) :
    ∀ f k : ℕ, f + k = 7 → 1 ≤ f →
      (∀ j, k ≤ j → 1 ≤ j → j ≤ 6 →
        epsPerturbation < (refineSeq P lu orig b x0 j).2.2.2) →
      refineGo P lu orig b f (refineSeq P lu orig b x0 k).1
        (refineSeq P lu orig b x0 k).2.1 (refineSeq P lu orig b x0 k).2.2.1
        (refineSeq P lu orig b x0 k).2.2.2 = Except.error () := by
  intro f
  induction f with
  | zero => intro k _ h1 _; omega
  | succ f ih =>
    intro k hk _ hall
    have hbk : ¬ (refineSeq P lu orig b x0 k).2.2.2 ≤ epsPerturbation := by
      by_cases hk0 : k = 0
      · subst hk0; exact refineSeq_zero_berr P lu orig b x0
      · exact not_le.mpr (hall k le_rfl (by omega) (by omega))
    by_cases hf0 : f = 0
    · subst hf0
      rw [refineGo, if_neg hbk, if_pos rfl]
    · rw [refineGo_step P lu orig b x0 f k hf0 hbk]
      exact ih (k + 1) (by omega) (by omega) (fun j hj h1 h6 => hall j (by omega) h1 h6)

theorem refineGo_seq_ok (P : SPattern) (lu orig b x0 : ℕ → ℚ) :
    ∀ f k K : ℕ, f + k = 7 → k ≤ K → 1 ≤ K → K ≤ 6 →
      (refineSeq P lu orig b x0 K).2.2.2 ≤ epsPerturbation →
      (∀ j, k ≤ j → 1 ≤ j → j < K →
        epsPerturbation < (refineSeq P lu orig b x0 j).2.2.2) →
      refineGo P lu orig b f (refineSeq P lu orig b x0 k).1
        (refineSeq P lu orig b x0 k).2.1 (refineSeq P lu orig b x0 k).2.2.1
        (refineSeq P lu orig b x0 k).2.2.2 =
        Except.ok ((refineSeq P lu orig b x0 K).1) := by
  intro f
  induction f with
  | zero => intro k K h hkK h1 h6 _ _; omega
  | succ f ih =>
    intro k K hk hkK h1 h6 hK hprev
    by_cases hkeq : k = K
    · subst hkeq
      rw [refineGo, if_pos hK]
    · have hklt : k < K := by omega
      have hbk : ¬ (refineSeq P lu orig b x0 k).2.2.2 ≤ epsPerturbation := by
        by_cases hk0 : k = 0
        · subst hk0; exact refineSeq_zero_berr P lu orig b x0
        · exact not_le.mpr (hprev k le_rfl (by omega) hklt)
      have hf0 : f ≠ 0 := by omega
      rw [refineGo_step P lu orig b x0 f k hf0 hbk]
      exact ih (k + 1) K (by omega) (by omega) h1 h6 hK
        (fun j hj h1j hjK => hprev j (by omega) h1j hjK)

theorem solveWithRefinement_eq_seq (P : SPattern) (lu orig b x0 : ℕ → ℚ) :
    solveWithRefinement P lu orig b x0 =
      refineGo P lu orig b 7 (refineSeq P lu orig b x0 0).1
        (refineSeq P lu orig b x0 0).2.1 (refineSeq P lu orig b x0 0).2.2.1
        (refineSeq P lu orig b x0 0).2.2.2 := rfl

/-- C3: in perturbed mode the scalar solve performs iterative refinement: at
every pass the correction is solved from the current residual, `x += dx` on
each row, and the measured backward error is
`max_r |res_r| / max(denom_r, 1e-4·max_r denom_r)` with
`denom_r = |b_r| + Σ_c |A[r,c]|·|x_c|` over the preserved original matrix;
the loop returns the current iterate at the first of the at most 6 solve
passes whose backward error is at most `1e-13`, and throws when all 6
passes miss that bound. -/
theorem C3_iterative_refinement (P : SPattern) (lu orig b x0 : ℕ → ℚ) :
    (∀ k : ℕ,
      (refineSeq P lu orig b x0 (k + 1)).2.2.2 =
        berrSpec P orig b (refineSeq P lu orig b x0 k).2.1
          (refineSeq P lu orig b x0 k).1
      ∧ (refineSeq P lu orig b x0 (k + 1)).2.2.1 =
          solveOnceScalar P lu (refineSeq P lu orig b x0 k).2.1
            (refineSeq P lu orig b x0 k).2.2.1
      ∧ ∀ j, j < P.size → (refineSeq P lu orig b x0 (k + 1)).1 j =
          (refineSeq P lu orig b x0 k).1 j + (refineSeq P lu orig b x0 (k + 1)).2.2.1 j)
    ∧ (∀ K, 1 ≤ K → K ≤ 6 →
        (refineSeq P lu orig b x0 K).2.2.2 ≤ epsPerturbation →
        (∀ j, 1 ≤ j → j < K →
          epsPerturbation < (refineSeq P lu orig b x0 j).2.2.2) →
        solveWithRefinement P lu orig b x0 =
          Except.ok ((refineSeq P lu orig b x0 K).1))
    ∧ ((∀ j, 1 ≤ j → j ≤ 6 →
          epsPerturbation < (refineSeq P lu orig b x0 j).2.2.2) →
        solveWithRefinement P lu orig b x0 = Except.error ()) := by
  refine ⟨?_, ?_, ?_⟩
  · intro k
    refine ⟨?_, rfl, ?_⟩
    · exact iterBackErr_berrSpec P orig b (refineSeq P lu orig b x0 k).2.1
        (solveOnceScalar P lu (refineSeq P lu orig b x0 k).2.1
          (refineSeq P lu orig b x0 k).2.2.1) (refineSeq P lu orig b x0 k).1
    · intro j hj
      have h := iterBackErr_x P orig b (refineSeq P lu orig b x0 k).2.1
        (solveOnceScalar P lu (refineSeq P lu orig b x0 k).2.1
          (refineSeq P lu orig b x0 k).2.2.1) (refineSeq P lu orig b x0 k).1 j
      rw [if_pos hj] at h
      exact h
  · intro K h1 h6 hK hprev
    rw [solveWithRefinement_eq_seq]
    exact refineGo_seq_ok P lu orig b x0 7 0 K (by omega) (by omega) h1 h6 hK
      (fun j _ h1j hjK => hprev j h1j hjK)
  · intro hall
    rw [solveWithRefinement_eq_seq]
    exact refineGo_seq_error P lu orig b x0 7 0 (by omega) (by omega)
      (fun j _ h1 h6 => hall j h1 h6)

theorem hseqW1 : refineSeq PW8 aW8 aW8 bW8 zW8 1 = (x1W, res1W, dx1W, 1) := by
  rw [show (1 : ℕ) = 0 + 1 from rfl, refineSeq]
  have h0 : refineSeq PW8 aW8 aW8 bW8 zW8 0 = (x0W, bW8, x0W, dblMaxQ) := rfl
  rw [h0]
  simp only [hdx1W, hib1W, hres1W]

theorem hseqW2 : refineSeq PW8 aW8 aW8 bW8 zW8 2 =
    (x2W, calcResidual PW8 aW8 bW8 x2W res1W, dx2W, 0) := by
  rw [show (2 : ℕ) = 1 + 1 from rfl, refineSeq, hseqW1]
  simp only [hdx2W, hib2W]

theorem C3_iterative_refinement_witness :
    ((refineSeq PW8 aW8 aW8 bW8 zW8 2).2.2.2 ≤ epsPerturbation) ∧
    solveWithRefinement PW8 aW8 aW8 bW8 zW8 =
      Except.ok ((refineSeq PW8 aW8 aW8 bW8 zW8 2).1) :=
  have h2 : (refineSeq PW8 aW8 aW8 bW8 zW8 2).2.2.2 ≤ epsPerturbation := by
    rw [hseqW2]; norm_num [epsPerturbation]
  ⟨h2, (C3_iterative_refinement PW8 aW8 aW8 bW8 zW8).2.1 2 (by norm_num) (by norm_num)
    h2 (by
      intro j h1 hj
      have hj1 : j = 1 := by omega
      subst hj1
      rw [hseqW1]
      norm_num [epsPerturbation])⟩

/-!
### Claim C7: the round trip at an exact solution

With a zero mismatch vector the aliased `solve_once` returns a zero
increment, and `iterate_unknown` applied to a zero increment leaves every
bus voltage unchanged and reports `max_dev = 0`.
-/

theorem updSubFold_zero (lu : ℕ → ℚ) (cols : ℕ → ℕ) (row : ℕ) :
    ∀ (l : List ℕ) (xc : ℕ → ℚ), (∀ j, xc j = 0) →
      ∀ j, (l.foldl (fun xc k => upd xc row (xc row - lu k * xc (cols k))) xc) j = 0 := by
  intro l
  induction l with
  | nil => intro xc hxc j; exact hxc j
  | cons a t ih =>
    intro xc hxc j
    rw [List.foldl_cons]
    apply ih
    intro j2
    by_cases hj : j2 = row
    · rw [hj, upd_same, hxc row, hxc (cols a)]; ring
    · rw [upd_other _ _ _ _ hj]; exact hxc j2

theorem fwdRow_zero (P : SPattern) (lu v : ℕ → ℚ) (row : ℕ)
    (hv : ∀ j, v j = 0) : ∀ j, fwdRow P lu v v row j = 0 := by
  intro j
  have hinit : ∀ j2, upd v row (v row) j2 = 0 := by
    intro j2
    by_cases hj : j2 = row
    · rw [hj, upd_same]; exact hv row
    · rw [upd_other _ _ _ _ hj]; exact hv j2
  exact updSubFold_zero lu P.cols row
    (List.range' (P.indptr row) (P.diag row - P.indptr row)) (upd v row (v row)) hinit j

theorem bwdRow_zero (P : SPattern) (lu v : ℕ → ℚ) (row : ℕ)
    (hv : ∀ j, v j = 0) : ∀ j, bwdRow P lu v row j = 0 := by
  intro j
  have hx1 : ∀ j2, (((List.range' (P.diag row + 1)
      (P.indptr (row + 1) - (P.diag row + 1))).reverse).foldl
      (fun xc u_idx => upd xc row (xc row - lu u_idx * xc (P.cols u_idx))) v) j2 = 0 :=
    fun j2 => updSubFold_zero lu P.cols row _ v hv j2
  show upd (((List.range' (P.diag row + 1)
      (P.indptr (row + 1) - (P.diag row + 1))).reverse).foldl
      (fun xc u_idx => upd xc row (xc row - lu u_idx * xc (P.cols u_idx))) v) row
    ((((List.range' (P.diag row + 1)
      (P.indptr (row + 1) - (P.diag row + 1))).reverse).foldl
      (fun xc u_idx => upd xc row (xc row - lu u_idx * xc (P.cols u_idx))) v) row /
        lu (P.diag row)) j = 0
  by_cases hj : j = row
  · subst hj; rw [upd_same, hx1 j, zero_div]
  · rw [upd_other _ _ _ _ hj]; exact hx1 j

theorem foldl_zero_preserve (g : (ℕ → ℚ) → ℕ → (ℕ → ℚ))
    (hg : ∀ v i, (∀ j, v j = 0) → ∀ j, g v i j = 0) :
    ∀ (l : List ℕ) (v : ℕ → ℚ), (∀ j, v j = 0) → ∀ j, (l.foldl g v) j = 0 := by
  intro l
  induction l with
  | nil => intro v hv j; exact hv j
  | cons a t ih =>
    intro v hv j
    rw [List.foldl_cons]
    exact ih (g v a) (fun j2 => hg v a hv j2) j

theorem solveOnceAliased_zero (P : SPattern) (lu b : ℕ → ℚ) (hb : ∀ j, b j = 0) :
    ∀ j, solveOnceScalarAliased P lu b j = 0 := by
  intro j
  rw [solveOnceScalarAliased]
  have hxf : ∀ j2,
      ((List.range' 0 P.size).foldl (fun xc row => fwdRow P lu xc xc row) b) j2 = 0 :=
    foldl_zero_preserve (fun xc row => fwdRow P lu xc xc row)
      (fun v i hv j2 => fwdRow_zero P lu v i hv j2) _ b hb
  exact foldl_zero_preserve (bwdRow P lu)
    (fun v i hv j2 => bwdRow_zero P lu v i hv j2) _ _ hxf j

theorem newX_zero_del {p : ℕ} (x del : ℕ → PolarV p)
    (hθ : ∀ i ph, (del i).theta ph = 0) (hv : ∀ i ph, (del i).v ph = 0) (i : ℕ) :
    newX x del i = x i := by
  rw [newX]
  have h1 : (fun ph => (x i).theta ph + (del i).theta ph) = (x i).theta := by
    funext ph; rw [hθ i ph, add_zero]
  have h2 : (fun ph => (x i).v ph + (x i).v ph * (del i).v ph) = (x i).v := by
    funext ph; rw [hv i ph, mul_zero, add_zero]
  rw [h1, h2]

theorem newU_eq_u {p : ℕ} (x del : ℕ → PolarV p) (u : ℕ → Fin (p + 1) → ℂ)
    (hx : ∀ i, newX x del i = x i)
    (hu : ∀ i ph, u i ph =
      ((x i).v ph : ℂ) * Complex.exp (Complex.I * ((x i).theta ph : ℂ)))
    (i : ℕ) : newU x del i = u i := by
  funext ph
  simp only [newU, hx i]
  exact (hu i ph).symm

theorem devSpec_zero_del {p : ℕ} (x del : ℕ → PolarV p) (u : ℕ → Fin (p + 1) → ℂ)
    (hnU : ∀ i, newU x del i = u i) (i : ℕ) : devSpec x del u i = 0 := by
  rw [devSpec]
  have h : (fun ph => Complex.abs (newU x del i ph - u i ph)) = fun _ => (0 : ℝ) := by
    funext ph
    rw [hnU i, sub_self, map_zero]
  rw [h, maxVal]
  exact Finset.sup'_const _ _

/-- C7: with a zero mismatch vector and a factorization that completed
without error, the aliased solve produces a zero increment, and
`iterate_unknown` driven by that increment leaves every `U_i` unchanged and
returns `max_dev = 0` (given that `U` is consistent with the polar state, as
the solver maintains). -/
theorem C7_zero_mismatch_roundtrip {p : ℕ} (P : SPattern) (data b : ℕ → ℚ)
    (st : FactState) (nrm : ℚ) (n : ℕ) (x del : ℕ → PolarV p)
    (u : ℕ → Fin (p + 1) → ℂ) (idxT idxV : ℕ → Fin (p + 1) → ℕ)
    (hfact : prefactorizeScalar P data false = Except.ok (st, nrm))
    (hb : ∀ j, b j = 0)
    (hdel : del = fun i =>
      ⟨fun ph => solveOnceScalarAliased P st.lu b (idxT i ph),
       fun ph => solveOnceScalarAliased P st.lu b (idxV i ph)⟩)
    (hu : ∀ i ph, u i ph =
      ((x i).v ph : ℂ) * Complex.exp (Complex.I * ((x i).theta ph : ℂ))) :
    (∀ j, solveOnceScalarAliased P st.lu b j = 0)
    ∧ (∀ i, (iterate_unknown del n x u).u i = u i)
    ∧ (iterate_unknown del n x u).maxdev = 0 := by
  have hy : ∀ j, solveOnceScalarAliased P st.lu b j = 0 :=
    solveOnceAliased_zero P st.lu b hb
  have hθ : ∀ i ph, (del i).theta ph = 0 := by
    intro i ph
    rw [hdel]
    show ((solveOnceScalarAliased P st.lu b (idxT i ph) : ℚ) : ℝ) = 0
    rw [hy (idxT i ph)]
    exact Rat.cast_zero
  have hv : ∀ i ph, (del i).v ph = 0 := by
    intro i ph
    rw [hdel]
    show ((solveOnceScalarAliased P st.lu b (idxV i ph) : ℚ) : ℝ) = 0
    rw [hy (idxV i ph)]
    exact Rat.cast_zero
  have hx : ∀ i, newX x del i = x i := newX_zero_del x del hθ hv
  have hnU : ∀ i, newU x del i = u i := newU_eq_u x del u hx hu
  have hds : ∀ i, devSpec x del u i = 0 := devSpec_zero_del x del u hnU
  obtain ⟨hdone, hnew, _, hmax⟩ := iterate_unknown_loop del x u n
  refine ⟨hy, ?_, ?_⟩
  · intro i
    rw [iterate_unknown]
    by_cases hi : i < n
    · exact ((hdone i hi).2).trans (hnU i)
    · exact (hnew i (by omega)).2
  · rw [iterate_unknown]
    rcases hmax with h0 | ⟨i, _, heq⟩
    · exact h0
    · rw [heq, hds i]

def stW7 : FactState := ⟨aW8, upd PW8.indptr 0 1, false, [2]⟩

theorem hfactW7 : prefactorizeScalar PW8 aW8 false = Except.ok (stW7, 0) := by
  norm_num [prefactorizeScalar, factStep, elimRowStep, schurStep, is_normal, upd,
    List.range', PW8, aW8, stW7, List.foldlM, Except.map, Bind.bind, Except.bind,
    pure, Except.pure]

def xW7 : ℕ → PolarV 0 := fun _ => ⟨fun _ => 0, fun _ => 1⟩

noncomputable def uW7 : ℕ → Fin 1 → ℂ := fun i ph =>
  ((xW7 i).v ph : ℂ) * Complex.exp (Complex.I * ((xW7 i).theta ph : ℂ))

def delW7 : ℕ → PolarV 0 := fun i =>
  ⟨fun _ => solveOnceScalarAliased PW8 stW7.lu zW8 (2 * i),
   fun _ => solveOnceScalarAliased PW8 stW7.lu zW8 (2 * i + 1)⟩

theorem C7_zero_mismatch_roundtrip_witness :
    (∀ j, solveOnceScalarAliased PW8 stW7.lu zW8 j = 0)
    ∧ (∀ i, (iterate_unknown delW7 1 xW7 uW7).u i = uW7 i)
    ∧ (iterate_unknown delW7 1 xW7 uW7).maxdev = 0 :=
  C7_zero_mismatch_roundtrip PW8 aW8 zW8 stW7 0 1 xW7 delW7 uW7
    (fun i _ => 2 * i) (fun i _ => 2 * i + 1) hfactW7 (fun _ => rfl) rfl
    (fun _ _ => rfl)

/-!
### Claim C2: when `prefactorize` fails

`factRun k` is the state of the scalar pivot loop after the first `k` pivot
steps; `pivotState` is the state a pivot step sees at its `is_normal` check,
after the optional perturbation.
-/

def factRun (P : SPattern) (data : ℕ → ℚ) (usePert : Bool) (k : ℕ) :
    Except Unit FactState :=
  (List.range' 0 k).foldlM
    (factStep P usePert (epsPerturbation * (if usePert then matrixNormOff P data else 0)))
    ⟨data, P.indptr, false, []⟩

def pivotState (P : SPattern) (usePert : Bool) (threshold : ℚ) (st : FactState)
    (pivot_row_col : ℕ) : FactState :=
  let pivot_idx := P.diag pivot_row_col
  let v := st.lu pivot_idx
  if usePert then
    let r := perturb_pivot_if_needed threshold v |v| st.flag
    { st with lu := upd st.lu pivot_idx r.1, flag := r.2.2, pivots := st.pivots ++ [v] }
  else { st with pivots := st.pivots ++ [v] }

theorem factStep_eq_pivotState (P : SPattern) (usePert : Bool) (th : ℚ)
    (st : FactState) (k : ℕ) :
    factStep P usePert th st k =
      if is_normal ((pivotState P usePert th st k).lu (P.diag k)) then
        Except.ok
          { (List.range' (P.diag k + 1) (P.indptr (k + 1) - (P.diag k + 1))).foldl
              (elimRowStep P k (P.diag k)) (pivotState P usePert th st k) with
            colpos := upd
              ((List.range' (P.diag k + 1) (P.indptr (k + 1) - (P.diag k + 1))).foldl
                (elimRowStep P k (P.diag k)) (pivotState P usePert th st k)).colpos k
              (((List.range' (P.diag k + 1) (P.indptr (k + 1) - (P.diag k + 1))).foldl
                (elimRowStep P k (P.diag k)) (pivotState P usePert th st k)).colpos k + 1) }
      else Except.error () := rfl

theorem factStep_error_iff (P : SPattern) (usePert : Bool) (th : ℚ)
    (st : FactState) (k : ℕ) :
    factStep P usePert th st k = Except.error () ↔
      ¬ is_normal ((pivotState P usePert th st k).lu (P.diag k)) := by
  rw [factStep_eq_pivotState]
  by_cases h : is_normal ((pivotState P usePert th st k).lu (P.diag k))
  · rw [if_pos h]
    exact ⟨fun hh => Except.noConfusion hh, fun hh => absurd h hh⟩
  · rw [if_neg h]
    exact ⟨fun _ => h, fun _ => rfl⟩

theorem prefactorizeScalar_as_factRun (P : SPattern) (data : ℕ → ℚ) (usePert : Bool) :
    prefactorizeScalar P data usePert =
      (factRun P data usePert P.size).map
        (fun st => (st, if usePert then matrixNormOff P data else 0)) := rfl

theorem prefactorizeScalar_error_iff (P : SPattern) (data : ℕ → ℚ) (usePert : Bool) :
    prefactorizeScalar P data usePert = Except.error () ↔
      factRun P data usePert P.size = Except.error () := by
  rw [prefactorizeScalar_as_factRun]
  cases hfr : factRun P data usePert P.size with
  | error e =>
    cases e
    exact ⟨fun _ => rfl, fun _ => rfl⟩
  | ok st =>
    exact ⟨fun h => Except.noConfusion h, fun h => Except.noConfusion h⟩

theorem factRun_zero (P : SPattern) (data : ℕ → ℚ) (usePert : Bool) :
    factRun P data usePert 0 = Except.ok ⟨data, P.indptr, false, []⟩ := rfl

theorem factRun_succ (P : SPattern) (data : ℕ → ℚ) (usePert : Bool) (k : ℕ) :
    factRun P data usePert (k + 1) =
      factRun P data usePert k >>= fun st =>
        factStep P usePert
          (epsPerturbation * (if usePert then matrixNormOff P data else 0)) st k := by
  rw [factRun, factRun, List.range'_1_concat, Nat.zero_add, List.foldlM_append]
  simp [List.foldlM]

theorem factRun_error_iff (P : SPattern) (data : ℕ → ℚ) (usePert : Bool) :
    ∀ n, (factRun P data usePert n = Except.error () ↔
      ∃ k, k < n ∧ ∃ st, factRun P data usePert k = Except.ok st ∧
        factStep P usePert
          (epsPerturbation * (if usePert then matrixNormOff P data else 0)) st k =
          Except.error ()) := by
  intro n
  induction n with
  | zero =>
    rw [factRun_zero]
    exact ⟨fun h => Except.noConfusion h, fun ⟨k, hk, _⟩ => absurd hk (by omega)⟩
  | succ n ih =>
    rw [factRun_succ]
    cases hfr : factRun P data usePert n with
    | error e =>
      cases e
      constructor
      · intro _
        obtain ⟨k, hk, st, hok, herr⟩ := ih.mp hfr
        exact ⟨k, by omega, st, hok, herr⟩
      · intro _
        rfl
    | ok st =>
      constructor
      · intro h
        exact ⟨n, by omega, st, hfr, h⟩
      · rintro ⟨k, hk, st', hok, herr⟩
        by_cases hkn : k = n
        · subst hkn
          rw [hfr] at hok
          have hst : st = st' := Except.ok.inj hok
          rw [← hst] at herr
          exact herr
        · have : factRun P data usePert n = Except.error () :=
            ih.mpr ⟨k, by omega, st', hok, herr⟩
          rw [hfr] at this
          exact Except.noConfusion this

/-- C2 (amended): the scalar `prefactorize` throws `SparseMatrixError`
exactly when some pivot step sees a non-normal (in exact arithmetic: zero)
diagonal value after the optional perturbation, and completes without error
otherwise; the scalar path applies no relative `ε·max_pivot` test (the
counterexample exhibits a factorization that completes with a pivot far
below `ε` times the largest pivot). -/
theorem C2_scalar_pivot_failure (P : SPattern) (data : ℕ → ℚ) (usePert : Bool) :
    prefactorizeScalar P data usePert = Except.error () ↔
      ∃ k, k < P.size ∧ ∃ st, factRun P data usePert k = Except.ok st ∧
        ¬ is_normal ((pivotState P usePert
            (epsPerturbation * (if usePert then matrixNormOff P data else 0)) st k).lu
          (P.diag k)) := by
  rw [prefactorizeScalar_error_iff, factRun_error_iff]
  apply exists_congr
  intro k
  apply and_congr_right
  intro _
  apply exists_congr
  intro st
  apply and_congr_right
  intro _
  exact factStep_error_iff P usePert
    (epsPerturbation * (if usePert then matrixNormOff P data else 0)) st k

theorem C2_scalar_pivot_failure_witness :
    prefactorizeScalar PW8 (fun _ => 0) false = Except.error () :=
  (C2_scalar_pivot_failure PW8 (fun _ => 0) false).mpr
    ⟨0, Nat.one_pos, ⟨fun _ => 0, PW8.indptr, false, []⟩, rfl, by
      norm_num [pivotState, is_normal, PW8, upd]⟩

/-- A 2×2 diagonal pattern: row `r` holds the single entry `(r, r)`. -/
def Pc2 : SPattern := ⟨2, fun r => r, fun k => k, fun r => r⟩

def dc2 : ℕ → ℚ := fun k => if k = 0 then 1 else 1 / 10 ^ 20

def stc2 : FactState := ⟨dc2, upd (upd Pc2.indptr 0 1) 1 2, false, [1, 1 / 10 ^ 20]⟩

/-- C2 counterexample: with pivot perturbation disabled, the scalar
`prefactorize` completes without error on `diag(1, 1e-20)` even though the
second pivot's magnitude is far below `ε · max_pivot` (`ε = 2^-52`,
`max_pivot = 1`): the scalar path never applies the relative pivot test the
claim describes. -/
theorem C2_epsilon_check_counterexample :
    prefactorizeScalar Pc2 dc2 false = Except.ok (stc2, 0)
    ∧ |dc2 (Pc2.diag 1)| < epsQ * |dc2 (Pc2.diag 0)|
    ∧ (∀ q ∈ stc2.pivots, |q| ≤ |dc2 (Pc2.diag 0)|) := by
  refine ⟨?_, ?_, ?_⟩
  · norm_num [prefactorizeScalar, factStep, elimRowStep, schurStep, is_normal, upd,
      List.range', Pc2, dc2, stc2, List.foldlM, Except.map, Bind.bind, Except.bind,
      pure, Except.pure]
  · norm_num [Pc2, dc2, epsQ, abs]
  · intro q hq
    have hq2 : q = 1 ∨ q = 1 / 10 ^ 20 := by
      simpa [stc2] using hq
    rcases hq2 with h | h <;> rw [h] <;> norm_num [Pc2, dc2, abs]

end PGM
